import Mathlib

/-!
# Formal model of the McManamon stereo disparity kernel (`cv-disparity`)

This file gives a shallow embedding, over exact rational arithmetic, of the
disparity-computation kernel in `src/mcmanamon.rs` and of the disparity-map
container in `src/disparity.rs`, and proves (or refutes) the specification's
claims about it.

Floating-point `f32` values are modelled by `ℚ`; machine `usize`/`isize`
loop indices are modelled by `ℕ`/`ℤ`.  A Rust `for x in a..b` loop is
modelled by a fold over the list `[a, a+1, ..., b-1]`.  A Rust panic
(`usize` underflow / `Vec::with_capacity` capacity overflow, reachable in
`compute` when the dynamic disparity range becomes empty-inverted) is
modelled by a `panicked` flag that aborts the remaining computation.
-/

namespace CvDisparity

/-- Iteration list of a Rust `std::ops::Range<isize>` value `s..e`:
the integers `s, s+1, ..., e-1` (empty when `e ≤ s`). -/
def intRange (s e : ℤ) : List ℤ :=
  (List.range (e - s).toNat).map (fun (k : ℕ) => s + (k : ℤ))

/-- Iteration list of a Rust `std::ops::Range<usize>` value `s..e`:
the naturals `s, s+1, ..., e-1` (empty when `e ≤ s`). -/
def natRange (s e : ℕ) : List ℕ :=
  List.range' s (e - s)

/-- Modelled from the spec: the external floating-point 2D pixel buffer
(`cv_camstream::GrayFloatImage`), a read-only grid supporting
`get(x, y) -> float`.  The kernel assumes all traversed accesses are
in range, so the buffer is modelled as a total function on `ℤ × ℤ`
(the `usize` round-trips in the source are identities on in-range
coordinates). -/
structure Img where
  get : ℤ → ℤ → ℚ

/-- Modelled from the spec: the external `cv_camstream::StereoFrame`,
exposing two same-sized rectified pixel buffers and their dimensions. -/
structure StereoFrame where
  left : Img
  right : Img
  width : ℕ
  height : ℕ

/-- `Params` of `McManamon` (src/mcmanamon.rs). -/
structure Params where
  min_disparity : ℕ
  max_disparity : ℕ
  dyn_disparity_threshold : ℕ
  correlation_window_size : ℕ × ℕ

/-- Criterion tripple with total, left column and right column values
(src/mcmanamon.rs, `CritTripple`). -/
structure CritTripple where
  total : ℚ
  left_col : ℚ
  right_col : ℚ
deriving DecidableEq

/-- The `McManamon` algorithm state: parameters plus the derived
correlation-window offset ranges (src/mcmanamon.rs). -/
structure McManamon where
  params : Params
  xRangeStart : ℤ
  xRangeEnd : ℤ
  yRangeStart : ℤ
  yRangeEnd : ℤ

/-- `McManamon::new` (src/mcmanamon.rs lines 59-71).  The source computes
`semi_width = (w as isize - 1) / 2` with Rust (truncating) `isize`
division; for every `w : usize` this agrees with the ℕ computation
`(w - 1) / 2` (at `w = 0` both give `0`). -/
def McManamon.new (params : Params) : McManamon :=
  let semi_width : ℕ := (params.correlation_window_size.1 - 1) / 2
  let semi_height : ℕ := (params.correlation_window_size.2 - 1) / 2
  { params := params
    xRangeStart := -(semi_width : ℤ)
    xRangeEnd := (semi_width : ℤ) + 1
    yRangeStart := -(semi_height : ℤ)
    yRangeEnd := (semi_height : ℤ) + 1 }

/-- The absolute-difference term `|left(u, v) - right(u - d, v)|` that the
correlation criterion accumulates. -/
def absdiff (fr : StereoFrame) (d : ℕ) (u v : ℤ) : ℚ :=
  |fr.left.get u v - fr.right.get (u - (d : ℤ)) v|

/-- `McManamon::get_criterion` (src/mcmanamon.rs lines 74-107): the full
window scan.  The accumulator triple is `(middle, left_col, right_col)`,
updated exactly as the source's three-way branch on the column offset. -/
def McManamon.get_criterion (m : McManamon) (fr : StereoFrame)
    (x y : ℕ) (d : ℕ) : CritTripple :=
  let r := (intRange m.yRangeStart m.yRangeEnd).foldl
    (fun s j =>
      (intRange m.xRangeStart m.xRangeEnd).foldl
        (fun s' i =>
          let xi := (x : ℤ) + i
          let yj := (y : ℤ) + j
          let t := absdiff fr d xi yj
          if i = m.xRangeStart then (s'.1, s'.2.1 + t, s'.2.2)
          else if i = m.xRangeEnd - 1 then (s'.1, s'.2.1, s'.2.2 + t)
          else (s'.1 + t, s'.2.1, s'.2.2))
        s)
    ((0 : ℚ), (0 : ℚ), (0 : ℚ))
  { total := r.1 + r.2.1 + r.2.2
    left_col := r.2.1
    right_col := r.2.2 }

/-- `McManamon::get_criterion_fast` (src/mcmanamon.rs lines 111-159): the
incremental computation.  The fold state is
`(left_col, right_col, new_crit)`; `new_crit` is captured right after the
first (`j = yRangeStart`) `right_col` accumulation, as in the source. -/
def McManamon.get_criterion_fast (m : McManamon) (fr : StereoFrame)
    (x y : ℕ) (d : ℕ)
    (left_crit_tripple : CritTripple) (below_right_col_crit : ℚ) : CritTripple :=
  let old_crit : ℚ :=
    absdiff fr d ((x : ℤ) + m.xRangeEnd - 1) ((y : ℤ) + m.yRangeEnd)
  let r := (intRange m.yRangeStart m.yRangeEnd).foldl
    (fun s j =>
      let xi_left := (x : ℤ) + m.xRangeStart
      let xi_right := (x : ℤ) + m.xRangeEnd - 1
      let yj := (y : ℤ) + j
      let left_col := s.1 + absdiff fr d xi_left yj
      let right_col := s.2.1 + absdiff fr d xi_right yj
      let new_crit := if j = m.yRangeStart then right_col else s.2.2
      (left_col, right_col, new_crit))
    ((0 : ℚ), (0 : ℚ), (0 : ℚ))
  { total := left_crit_tripple.total - left_crit_tripple.left_col
      + below_right_col_crit + r.2.2 - old_crit
    left_col := r.1
    right_col := r.2.1 }

/-- Index of the minimum criterion value (src/mcmanamon.rs lines 288-298):
a fold that replaces the current index only on a strictly smaller value,
so ties are broken towards the first (lowest-disparity) occurrence. -/
def minIndexOf (crits : List ℚ) : ℕ :=
  crits.enum.foldl
    (fun min_idx p => if p.2 < crits.getD min_idx 0 then p.1 else min_idx) 0

/-- The disparity value selected at one pixel, including sub-pixel
interpolation (src/mcmanamon.rs lines 300-321).  `c_left > c_right` in the
source is written `c_right < c_left` here. -/
def dispValOf (min_dyn : ℕ) (crits : List ℚ) : ℚ :=
  let min_index := minIndexOf crits
  if min_index = 0 ∨ min_index = crits.length - 1 ∨ crits.length < 3 then
    ((min_dyn + min_index : ℕ) : ℚ)
  else
    let c_left := crits.getD (min_index - 1) 0
    let c_right := crits.getD (min_index + 1) 0
    let denom := if c_right < c_left then 2 * (c_left - crits.getD min_index 0)
      else 2 * (c_right - crits.getD min_index 0)
    ((min_dyn + min_index : ℕ) : ℚ) + (c_left - c_right) / denom

/-- Record of one visited pixel of the sweep: position, the dynamic
disparity interval in force, the accumulated criterion list and the
disparity value written by `disp_map.put` (src/mcmanamon.rs line 324). -/
structure PixelRec where
  x : ℕ
  y : ℕ
  minDyn : ℕ
  maxDyn : ℕ
  crits : List ℚ
  disp : ℚ
deriving DecidableEq

/-- Instrumentation record of one criterion computation of the sweep.
`usedBelow = none` means the slow path (`get_criterion`) ran;
`usedBelow = some (v, r)` means the fast path ran, consuming the
below-cache value `v`, and `r` is the row that produced that entry
(the row tag is instrumentation only: it rides along with the cached
value and never influences the computation). -/
structure CritEvent where
  x : ℕ
  y : ℕ
  d : ℕ
  usedBelow : Option (ℚ × ℕ)
  trip : CritTripple
deriving DecidableEq

/-- Record of one row of the sweep: the dynamic disparity interval before
the row, the row's observed `min_disp_this_row` / `max_disp_this_row`
trackers, and the interval after the RangeController update
(src/mcmanamon.rs lines 214-217 and 345-367). -/
structure RowRec where
  y : ℕ
  minDynBefore : ℕ
  maxDynBefore : ℕ
  minRow : ℚ
  maxRow : ℚ
  minDynAfter : ℕ
  maxDynAfter : ℕ
deriving DecidableEq

/-- The state threaded through `compute`'s row sweep.  `below x d` models
`below_right_col_crits[x][d]` (value plus instrumentation row tag);
`minDisp`/`maxDisp` are the whole-map trackers of lines 191-194.
`panicked` records that a `usize` underflow / capacity-overflow panic
occurred (reachable at line 242's `Vec::with_capacity(max_dyn - min_dyn)`
when `max_dyn < min_dyn`); a Rust panic aborts the whole computation, so
every later step leaves the state unchanged. -/
structure SweepState where
  below : ℕ → ℕ → Option (ℚ × ℕ)
  minDyn : ℕ
  maxDyn : ℕ
  minDisp : ℚ
  maxDisp : ℚ
  pixels : List PixelRec
  events : List CritEvent
  rows : List RowRec
  panicked : Bool

/-- State of the inner candidate-disparity loop (src/mcmanamon.rs lines
247-285): the refilled `left_crits` and `below_right_col_crits[x]`
arrays (cleared at the start of the pixel) and the accumulated `crits`. -/
structure DState where
  left : ℕ → Option CritTripple
  belowCol : ℕ → Option (ℚ × ℕ)
  crits : List ℚ
  events : List CritEvent

/-- The criterion computed for one candidate `d` at one pixel: the fast
path when both cache copies hold an entry for `d`, otherwise the slow
path (src/mcmanamon.rs lines 250-275). -/
def McManamon.critAt (m : McManamon) (fr : StereoFrame) (x y : ℕ)
    (leftCopy : ℕ → Option CritTripple) (belowCopy : ℕ → Option (ℚ × ℕ))
    (d : ℕ) : CritTripple :=
  match leftCopy d, belowCopy d with
  | some lt, some bv => m.get_criterion_fast fr x y d lt bv.1
  | _, _ => m.get_criterion fr x y d

/-- The below-cache entry consumed at candidate `d`, when the fast path
runs (`none` when either cache misses and the slow path runs). -/
def usedOf (leftCopy : ℕ → Option CritTripple) (belowCopy : ℕ → Option (ℚ × ℕ))
    (d : ℕ) : Option (ℚ × ℕ) :=
  match leftCopy d, belowCopy d with
  | some _, some bv => some bv
  | _, _ => none

/-- One iteration of the candidate-disparity loop (src/mcmanamon.rs lines
247-285): compute the criterion, refill `left_crits[d]` and
`below_right_col_crits[x][d]`, push the total. -/
def dStep (m : McManamon) (fr : StereoFrame) (x y : ℕ)
    (leftCopy : ℕ → Option CritTripple) (belowCopy : ℕ → Option (ℚ × ℕ))
    (st : DState) (d : ℕ) : DState :=
  let trip := m.critAt fr x y leftCopy belowCopy d
  let used : Option (ℚ × ℕ) := usedOf leftCopy belowCopy d
  { left := fun d' => if d' = d then some trip else st.left d'
    belowCol := fun d' => if d' = d then some (trip.right_col, y) else st.belowCol d'
    crits := st.crits ++ [trip.total]
    events := st.events ++ [⟨x, y, d, used, trip⟩] }

/-- State of one row of the sweep: the global state, the row-scoped
`left_crits` cache and the row trackers `min_disp_this_row` /
`max_disp_this_row` (src/mcmanamon.rs lines 214-221). -/
structure RowState where
  sw : SweepState
  leftCrits : ℕ → Option CritTripple
  minRow : ℚ
  maxRow : ℚ

/-- One pixel of the column sweep (src/mcmanamon.rs lines 223-341).
A pixel with `max_dyn < min_dyn` panics at
`Vec::with_capacity(max_dyn - min_dyn)` (usize underflow in a debug
build, capacity overflow of the wrapped value in a release build), before
any write.  Otherwise: copy and clear the two caches, run the candidate
loop, select and refine the disparity, write it, update the trackers. -/
def processPixel (m : McManamon) (fr : StereoFrame) (y : ℕ)
    (rs : RowState) (x : ℕ) : RowState :=
  if rs.sw.panicked then rs
  else if rs.sw.maxDyn < rs.sw.minDyn then
    { rs with sw := { rs.sw with panicked := true } }
  else
    let st := rs.sw
    let belowCopy := st.below x
    let leftCopy := rs.leftCrits
    let ds := natRange st.minDyn st.maxDyn
    let dres := ds.foldl (dStep m fr x y leftCopy belowCopy)
      ⟨fun _ => none, fun _ => none, [], []⟩
    let disp := dispValOf st.minDyn dres.crits
    let maxRow' := if disp > rs.maxRow then disp else rs.maxRow
    let minRow' := if disp > rs.maxRow then rs.minRow
      else if disp < rs.minRow then disp else rs.minRow
    let maxDisp' := if disp > st.maxDisp then disp else st.maxDisp
    let minDisp' := if disp > st.maxDisp then st.minDisp
      else if disp < st.minDisp then disp else st.minDisp
    { sw := { st with
        below := fun x' d => if x' = x then dres.belowCol d else st.below x' d
        minDisp := minDisp'
        maxDisp := maxDisp'
        pixels := st.pixels ++ [⟨x, y, st.minDyn, st.maxDyn, dres.crits, disp⟩]
        events := st.events ++ dres.events }
      leftCrits := dres.left
      minRow := minRow'
      maxRow := maxRow' }

/-- The RangeController update of `max_dyn_disp` (src/mcmanamon.rs lines
345-351): `ceil(max_disp_this_row) as usize + threshold`, clamped above by
`max_disparity`.  The `as usize` cast of a non-negative `f32` truncates;
`Int.toNat` also sends the (unreachable) negative case to `0`, as Rust's
saturating cast does. -/
def updMaxDyn (p : Params) (maxRow : ℚ) : ℕ :=
  let max_dyn_1 := (⌈maxRow⌉).toNat + p.dyn_disparity_threshold
  if p.max_disparity < max_dyn_1 then p.max_disparity else max_dyn_1

/-- The RangeController update of `min_dyn_disp` (src/mcmanamon.rs lines
353-367): `floor(min_disp_this_row) - threshold` computed in floating
point, clamped below by `0` and then by `min_disparity`, then cast to
`usize` (truncation of the non-negative integral value). -/
def updMinDyn (p : Params) (minRow : ℚ) : ℕ :=
  let mn0 : ℚ := (⌊minRow⌋ : ℚ) - (p.dyn_disparity_threshold : ℚ)
  let mn1 : ℚ := if mn0 < 0 then 0 else mn0
  let mn2 : ℚ := if mn1 < (p.min_disparity : ℚ) then (p.min_disparity : ℚ)
    else mn1
  (⌊mn2⌋).toNat

/-- One row of the sweep plus the RangeController update
(src/mcmanamon.rs lines 202-370).  Columns run from
`correlation_window_size.0 + max_dyn_disp` to `width -
correlation_window_size.0`; after the row, `max_dyn_disp` is set to
`ceil(max_disp_this_row) + threshold` clamped above by `max_disparity`,
and `min_dyn_disp` to `floor(min_disp_this_row) - threshold` clamped
below by `0` and by `min_disparity` (in that order), cast back to
`usize`.  Caveat: the source's `usize` subtraction
`width - correlation_window_size.0` (line 226) panics in a debug build
and wraps in a release build when the window is wider than the frame;
the ℕ subtraction here truncates to an empty column range instead, so
theorems about the sweep's failure behaviour are stated only for windows
that fit inside the frame, where the two subtractions agree. -/
def processRow (m : McManamon) (fr : StereoFrame) (st : SweepState)
    (y : ℕ) : SweepState :=
  if st.panicked then st
  else
    let p := m.params
    let xs := natRange (p.correlation_window_size.1 + st.maxDyn)
      (fr.width - p.correlation_window_size.1)
    let r := xs.foldl (processPixel m fr y)
      ⟨st, fun _ => none, (p.max_disparity : ℚ), (p.min_disparity : ℚ)⟩
    if r.sw.panicked then r.sw
    else
      let max_dyn' := updMaxDyn p r.maxRow
      let min_dyn' := updMinDyn p r.minRow
      { r.sw with
        minDyn := min_dyn'
        maxDyn := max_dyn'
        rows := r.sw.rows ++
          [⟨y, st.minDyn, st.maxDyn, r.minRow, r.maxRow, min_dyn', max_dyn'⟩] }

/-- The whole stereo-correlation sweep of `McManamon::compute`
(src/mcmanamon.rs lines 162-370): rows from
`correlation_window_size.1` to `height - correlation_window_size.1`,
iterated backwards (`.rev()`), starting from the full configured
disparity range and empty caches.  The feature-gated statistics code is
excluded.  Caveat: the source's `usize` subtraction
`height - correlation_window_size.1` (line 205) panics in a debug build
and wraps in a release build when the window is taller than the frame;
the ℕ subtraction here truncates to an empty row range instead, so
theorems about the sweep's failure behaviour are stated only for windows
that fit inside the frame, where the two subtractions agree. -/
def McManamon.computeState (m : McManamon) (fr : StereoFrame) : SweepState :=
  let p := m.params
  let ys := (natRange p.correlation_window_size.2
    (fr.height - p.correlation_window_size.2)).reverse
  ys.foldl (processRow m fr)
    { below := fun _ _ => none
      minDyn := p.min_disparity
      maxDyn := p.max_disparity
      minDisp := (p.max_disparity : ℚ)
      maxDisp := (p.min_disparity : ℚ)
      pixels := []
      events := []
      rows := []
      panicked := false }

/-- The disparity-map container (src/disparity.rs lines 18-22).  The
backing `GrayFloatImage` pixel store is modelled as a total function. -/
structure DisparityMap where
  width : ℕ
  height : ℕ
  data : ℕ → ℕ → ℚ
  max_disp : Option ℚ
  min_disp : Option ℚ

/-- `DisparityMap::new` (src/disparity.rs lines 38-44).  Modelled from the
spec: the external `GrayFloatImage::new` zero-initialises its cells (the
spec calls the default implementation-defined, for example zero). -/
def DisparityMap.new (width height : ℕ) : DisparityMap :=
  { width := width
    height := height
    data := fun _ _ => 0
    min_disp := none
    max_disp := none }

/-- `DisparityMap::put` (src/disparity.rs lines 46-48). -/
def DisparityMap.put (mp : DisparityMap) (x y : ℕ) (val : ℚ) : DisparityMap :=
  { mp with data := fun x' y' => if x' = x ∧ y' = y then val else mp.data x' y' }

/-- `McManamon::compute`'s result assembly (src/mcmanamon.rs lines
168-171, 324 and 372-374, 435): a fresh map receives one `put` per
visited pixel and finally the whole-map tracker values.  A run that
panics returns `none`; the source otherwise always returns `Ok`. -/
def McManamon.compute (m : McManamon) (fr : StereoFrame) : Option DisparityMap :=
  let st := m.computeState fr
  if st.panicked then none
  else
    let mp0 := DisparityMap.new fr.width fr.height
    let mp1 := st.pixels.foldl (fun mp r => mp.put r.x r.y r.disp) mp0
    some { mp1 with min_disp := some st.minDisp, max_disp := some st.maxDisp }

/-- `DisparityMap::to_luma` (src/disparity.rs lines 51-74): clamp each
stored value to `[0, 255]`, then truncate to `u8` (Rust `as u8` truncates
towards zero, which on the clamped non-negative value is the floor). -/
def DisparityMap.to_luma (mp : DisparityMap) : ℕ → ℕ → ℕ := fun x y =>
  let val := mp.data x y
  let val := if val < 0 then 0 else if val > 255 then (255 : ℚ) else val
  (⌊val⌋).toNat

/-- `DisparityMap::to_luma_normalised` (src/disparity.rs lines 80-108):
scale by `255 / max_disp` when the maximum is recorded (multiplier `1`
when it is `None`), then clamp and truncate exactly as `to_luma`. -/
def DisparityMap.to_luma_normalised (mp : DisparityMap) : ℕ → ℕ → ℕ := fun x y =>
  let mult : ℚ := match mp.max_disp with
    | some d => 255 / d
    | none => 1
  let val := mp.data x y * mult
  let val := if val < 0 then 0 else if val > 255 then (255 : ℚ) else val
  (⌊val⌋).toNat

/-! ## Helper lemmas: ranges, folds and sums -/

/-- A fold preserves any invariant preserved by each step. -/
theorem foldl_preserve {σ α : Type _} (P : σ → Prop) (f : σ → α → σ) :
    ∀ (l : List α) (s : σ), P s → (∀ s' a, a ∈ l → P s' → P (f s' a)) →
      P (l.foldl f s)
  | [], _, h, _ => h
  | a :: l, s, h, hstep =>
    foldl_preserve P f l (f s a) (hstep s a (List.mem_cons_self a l) h)
      (fun s' b hb => hstep s' b (List.mem_cons_of_mem a hb))

theorem intRange_eq_nil {s e : ℤ} (h : e ≤ s) : intRange s e = [] := by
  unfold intRange
  rw [Int.toNat_of_nonpos (by omega), List.range_zero, List.map_nil]

theorem intRange_cons {s e : ℤ} (h : s < e) :
    intRange s e = s :: intRange (s + 1) e := by
  unfold intRange
  have hn : (e - s).toNat = (e - (s + 1)).toNat + 1 := by omega
  rw [hn, List.range_succ_eq_map, List.map_cons, List.map_map]
  refine congrArg₂ _ (by simp) (List.map_congr_left fun k _ => ?_)
  simp [Function.comp]
  ring

theorem intRange_snoc {s e : ℤ} (h : s < e) :
    intRange s e = intRange s (e - 1) ++ [e - 1] := by
  unfold intRange
  have hn : (e - s).toNat = (e - 1 - s).toNat + 1 := by omega
  rw [hn, List.range_succ, List.map_append]
  refine congrArg₂ _ rfl ?_
  have h2 : s + ((e - 1 - s).toNat : ℤ) = e - 1 := by omega
  simp only [List.map_cons, List.map_nil, h2]

theorem mem_intRange {x s e : ℤ} : x ∈ intRange s e ↔ s ≤ x ∧ x < e := by
  unfold intRange
  simp only [List.mem_map, List.mem_range]
  constructor
  · rintro ⟨k, hk, rfl⟩
    omega
  · rintro ⟨h1, h2⟩
    exact ⟨(x - s).toNat, by omega, by omega⟩

theorem intRange_nodup (s e : ℤ) : (intRange s e).Nodup :=
  (List.nodup_range _).map fun a b hab => by omega

theorem intRange_shift (s e c : ℤ) :
    intRange (s + c) (e + c) = (intRange s e).map (fun i => i + c) := by
  unfold intRange
  rw [List.map_map]
  have he : e + c - (s + c) = e - s := by ring
  rw [he]
  refine List.map_congr_left fun k _ => ?_
  simp only [Function.comp]
  ring

theorem mem_natRange {x s e : ℕ} : x ∈ natRange s e ↔ s ≤ x ∧ x < e := by
  unfold natRange
  rw [List.mem_range'_1]
  omega

theorem natRange_eq_nil {s e : ℕ} (h : e ≤ s) : natRange s e = [] := by
  unfold natRange
  rw [Nat.sub_eq_zero_of_le h]
  rfl

theorem natRange_cons {s e : ℕ} (h : s < e) :
    natRange s e = s :: natRange (s + 1) e := by
  unfold natRange
  have hn : e - s = (e - (s + 1)) + 1 := by omega
  rw [hn, List.range'_succ]

theorem length_natRange (s e : ℕ) : (natRange s e).length = e - s := by
  simp [natRange]

theorem natRange_nodup (s e : ℕ) : (natRange s e).Nodup := by
  unfold natRange
  exact List.nodup_range' _ _

theorem sum_map_add {α : Type _} (l : List α) (f g : α → ℚ) :
    (l.map (fun x => f x + g x)).sum = (l.map f).sum + (l.map g).sum := by
  induction l with
  | nil => simp
  | cons a l ih => simp [ih]; ring

theorem sum_map_swap {α β : Type _} (l1 : List α) (l2 : List β) (h : α → β → ℚ) :
    (l1.map (fun a => (l2.map (h a)).sum)).sum
      = (l2.map (fun b => (l1.map (fun a => h a b)).sum)).sum := by
  induction l1 with
  | nil => simp
  | cons a l ih => simp [ih, sum_map_add]

theorem sum_map_ite_eq {α : Type _} [DecidableEq α] (l : List α) (a : α)
    (f : α → ℚ) (hnd : l.Nodup) (ha : a ∈ l) :
    (l.map (fun x => if x = a then f x else 0)).sum = f a := by
  induction l with
  | nil => cases ha
  | cons b l ih =>
    rcases List.mem_cons.mp ha with rfl | hmem
    · have hnot : a ∉ l := (List.nodup_cons.mp hnd).1
      have : (l.map (fun x => if x = a then f x else 0)).sum = 0 := by
        rw [List.sum_eq_zero]
        intro q hq
        rcases List.mem_map.mp hq with ⟨x, hx, rfl⟩
        have : x ≠ a := fun hxa => hnot (hxa ▸ hx)
        simp [this]
      simp [this]
    · have hba : b ≠ a := fun hba => (List.nodup_cons.mp hnd).1 (hba ▸ hmem)
      simp [hba, ih (List.nodup_cons.mp hnd).2 hmem]

theorem sum_map_zero {α : Type _} (l : List α) :
    (l.map (fun _ => (0 : ℚ))).sum = 0 := by
  rw [List.sum_eq_zero]
  intro q hq
  rcases List.mem_map.mp hq with ⟨x, _, rfl⟩
  rfl

/-- A fold whose step adds componentwise computes the componentwise sums. -/
theorem foldl_addTriple {α : Type _} (f : ℚ × ℚ × ℚ → α → ℚ × ℚ × ℚ)
    (g1 g2 g3 : α → ℚ) :
    ∀ (l : List α),
      (∀ s x, x ∈ l → f s x = (s.1 + g1 x, s.2.1 + g2 x, s.2.2 + g3 x)) →
      ∀ s : ℚ × ℚ × ℚ, l.foldl f s
        = (s.1 + (l.map g1).sum, s.2.1 + (l.map g2).sum, s.2.2 + (l.map g3).sum)
  | [], _, s => by simp
  | a :: l, hf, s => by
    rw [List.foldl_cons, hf s a (List.mem_cons_self a l),
      foldl_addTriple f g1 g2 g3 l
        (fun s' x hx => hf s' x (List.mem_cons_of_mem a hx)) _]
    simp
    refine ⟨by ring, by ring, by ring⟩

/-- A fold whose step adds on the first two components; the third may be
arbitrary.  Characterises the first two components only. -/
theorem foldl_addPair {α : Type _} (f : ℚ × ℚ × ℚ → α → ℚ × ℚ × ℚ)
    (g1 g2 : α → ℚ) (h3 : ℚ × ℚ × ℚ → α → ℚ) :
    ∀ (l : List α),
      (∀ s x, x ∈ l → f s x = (s.1 + g1 x, s.2.1 + g2 x, h3 s x)) →
      ∀ s : ℚ × ℚ × ℚ,
        (l.foldl f s).1 = s.1 + (l.map g1).sum
          ∧ (l.foldl f s).2.1 = s.2.1 + (l.map g2).sum
  | [], _, s => by simp
  | a :: l, hf, s => by
    rw [List.foldl_cons, hf s a (List.mem_cons_self a l)]
    have ih := foldl_addPair f g1 g2 h3 l
      (fun s' x hx => hf s' x (List.mem_cons_of_mem a hx))
      (s.1 + g1 a, s.2.1 + g2 a, h3 s a)
    refine ⟨ih.1.trans (by simp; ring), ih.2.trans (by simp; ring)⟩

/-! ## Closed forms of the two criterion computations -/

/-- The half-width `semi_width` derived by `McManamon::new`. -/
def semiW (p : Params) : ℕ := (p.correlation_window_size.1 - 1) / 2

/-- The half-height `semi_height` derived by `McManamon::new`. -/
def semiH (p : Params) : ℕ := (p.correlation_window_size.2 - 1) / 2

theorem new_xRangeStart (p : Params) :
    (McManamon.new p).xRangeStart = -(semiW p : ℤ) := rfl

theorem new_xRangeEnd (p : Params) :
    (McManamon.new p).xRangeEnd = (semiW p : ℤ) + 1 := rfl

theorem new_yRangeStart (p : Params) :
    (McManamon.new p).yRangeStart = -(semiH p : ℤ) := rfl

theorem new_yRangeEnd (p : Params) :
    (McManamon.new p).yRangeEnd = (semiH p : ℤ) + 1 := rfl

theorem new_params (p : Params) : (McManamon.new p).params = p := rfl

/-- Sum of the absolute-difference terms down one window column `c`,
rows `yy - hh .. yy + hh`. -/
def colSum (fr : StereoFrame) (d : ℕ) (hh : ℕ) (c : ℤ) (yy : ℤ) : ℚ :=
  ((intRange (-(hh : ℤ)) ((hh : ℤ) + 1)).map (fun j => absdiff fr d c (yy + j))).sum

/-- Closed form of `get_criterion`: `left_col` is the column sum at
`x - semi_width`; `right_col` is the column sum at `x + semi_width`
except for a window of width 1, where the single column is credited to
`left_col` and `right_col` stays `0`; `total` is always the whole
rectangle sum. -/
theorem get_criterion_eq (p : Params) (fr : StereoFrame) (x y d : ℕ) :
    (McManamon.new p).get_criterion fr x y d =
      { total := ((intRange (-(semiW p : ℤ)) ((semiW p : ℤ) + 1)).map
            (fun i => colSum fr d (semiH p) ((x : ℤ) + i) (y : ℤ))).sum
        left_col := colSum fr d (semiH p) ((x : ℤ) - (semiW p : ℤ)) (y : ℤ)
        right_col := if semiW p = 0 then 0
          else colSum fr d (semiH p) ((x : ℤ) + (semiW p : ℤ)) (y : ℤ) } := by
  set hw : ℤ := (semiW p : ℤ) with hhw
  set hh : ℤ := (semiH p : ℤ) with hhh
  have hIe : (McManamon.new p).xRangeEnd - 1 = hw := by
    rw [new_xRangeEnd]; ring
  set t : ℤ → ℤ → ℚ := fun i j => absdiff fr d ((x : ℤ) + i) ((y : ℤ) + j) with ht
  set g1 : ℤ → ℤ → ℚ := fun j i =>
    if i = -hw then 0 else if i = hw then 0 else t i j with hg1
  set g2 : ℤ → ℤ → ℚ := fun j i => if i = -hw then t i j else 0 with hg2
  set g3 : ℤ → ℤ → ℚ := fun j i =>
    if i = -hw then 0 else if i = hw then t i j else 0 with hg3
  have hinner : ∀ (j : ℤ) (s : ℚ × ℚ × ℚ),
      (intRange (McManamon.new p).xRangeStart (McManamon.new p).xRangeEnd).foldl
        (fun s' i =>
          let xi := (x : ℤ) + i
          let yj := (y : ℤ) + j
          let tt := absdiff fr d xi yj
          if i = (McManamon.new p).xRangeStart then (s'.1, s'.2.1 + tt, s'.2.2)
          else if i = (McManamon.new p).xRangeEnd - 1 then (s'.1, s'.2.1, s'.2.2 + tt)
          else (s'.1 + tt, s'.2.1, s'.2.2)) s
      = (s.1 + ((intRange (-hw) (hw + 1)).map (g1 j)).sum,
          s.2.1 + ((intRange (-hw) (hw + 1)).map (g2 j)).sum,
          s.2.2 + ((intRange (-hw) (hw + 1)).map (g3 j)).sum) := by
    intro j s
    rw [new_xRangeStart, new_xRangeEnd, ← hhw]
    refine foldl_addTriple _ (g1 j) (g2 j) (g3 j) _ (fun s' i _ => ?_) s
    dsimp only
    have e1 : hw + 1 - 1 = hw := by ring
    rw [e1, hg1, hg2, hg3]
    by_cases h1 : i = -hw
    · simp [h1, ht]
    · by_cases h2 : i = hw
      · have h1' : ¬(hw = -hw) := h2 ▸ h1
        simp [h2, h1', ht]
      · simp [h1, h2, ht]
  have router : (intRange (McManamon.new p).yRangeStart (McManamon.new p).yRangeEnd).foldl
      (fun s j =>
        (intRange (McManamon.new p).xRangeStart (McManamon.new p).xRangeEnd).foldl
          (fun s' i =>
            let xi := (x : ℤ) + i
            let yj := (y : ℤ) + j
            let tt := absdiff fr d xi yj
            if i = (McManamon.new p).xRangeStart then (s'.1, s'.2.1 + tt, s'.2.2)
            else if i = (McManamon.new p).xRangeEnd - 1 then (s'.1, s'.2.1, s'.2.2 + tt)
            else (s'.1 + tt, s'.2.1, s'.2.2)) s)
      ((0 : ℚ), (0 : ℚ), (0 : ℚ))
      = (((intRange (-hh) (hh + 1)).map
            (fun j => ((intRange (-hw) (hw + 1)).map (g1 j)).sum)).sum,
          ((intRange (-hh) (hh + 1)).map
            (fun j => ((intRange (-hw) (hw + 1)).map (g2 j)).sum)).sum,
          ((intRange (-hh) (hh + 1)).map
            (fun j => ((intRange (-hw) (hw + 1)).map (g3 j)).sum)).sum) := by
    rw [new_yRangeStart, new_yRangeEnd, ← hhh]
    have := foldl_addTriple
      (fun s j =>
        (intRange (McManamon.new p).xRangeStart (McManamon.new p).xRangeEnd).foldl
          (fun s' i =>
            let xi := (x : ℤ) + i
            let yj := (y : ℤ) + j
            let tt := absdiff fr d xi yj
            if i = (McManamon.new p).xRangeStart then (s'.1, s'.2.1 + tt, s'.2.2)
            else if i = (McManamon.new p).xRangeEnd - 1 then (s'.1, s'.2.1, s'.2.2 + tt)
            else (s'.1 + tt, s'.2.1, s'.2.2)) s)
      (fun j => ((intRange (-hw) (hw + 1)).map (g1 j)).sum)
      (fun j => ((intRange (-hw) (hw + 1)).map (g2 j)).sum)
      (fun j => ((intRange (-hw) (hw + 1)).map (g3 j)).sum)
      (intRange (-hh) (hh + 1))
      (fun s j _ => hinner j s) ((0 : ℚ), (0 : ℚ), (0 : ℚ))
    rw [this]
    simp
  have hmemneg : -hw ∈ intRange (-hw) (hw + 1) := mem_intRange.mpr (by omega)
  have hmempos : hw ∈ intRange (-hw) (hw + 1) := mem_intRange.mpr (by omega)
  have hnodup := intRange_nodup (-hw) (hw + 1)
  have hL : ∀ j : ℤ, ((intRange (-hw) (hw + 1)).map (g2 j)).sum = t (-hw) j := by
    intro j
    rw [hg2]
    exact sum_map_ite_eq _ (-hw) (fun i => t i j) hnodup hmemneg
  have hR : ∀ j : ℤ, ((intRange (-hw) (hw + 1)).map (g3 j)).sum
      = if semiW p = 0 then 0 else t hw j := by
    intro j
    by_cases h0 : semiW p = 0
    · rw [if_pos h0]
      rw [List.sum_eq_zero]
      intro q hq
      rcases List.mem_map.mp hq with ⟨i, hi, rfl⟩
      have : i = -hw := by
        have := mem_intRange.mp hi
        omega
      simp [hg3, this]
    · rw [if_neg h0]
      have hne : -hw ≠ hw := by
        simp only [hhw]
        omega
      have hcongr : (intRange (-hw) (hw + 1)).map (g3 j)
          = (intRange (-hw) (hw + 1)).map (fun i => if i = hw then t i j else 0) := by
        refine List.map_congr_left fun i _ => ?_
        by_cases h1 : i = -hw
        · subst h1
          simp [hg3, hne]
        · simp [hg3, if_neg h1]
      rw [hcongr, sum_map_ite_eq _ hw (fun i => t i j) hnodup hmempos]
  have hT : ∀ j : ℤ, ((intRange (-hw) (hw + 1)).map (g1 j)).sum
        + ((intRange (-hw) (hw + 1)).map (g2 j)).sum
        + ((intRange (-hw) (hw + 1)).map (g3 j)).sum
      = ((intRange (-hw) (hw + 1)).map (fun i => t i j)).sum := by
    intro j
    rw [← sum_map_add, ← sum_map_add]
    refine congrArg _ (List.map_congr_left fun i _ => ?_)
    by_cases h1 : i = -hw
    · simp [hg1, hg2, hg3, h1]
    · by_cases h2 : i = hw
      · have h1' : ¬(hw = -hw) := h2 ▸ h1
        simp [hg1, hg2, hg3, h1, h2, h1']
      · simp [hg1, hg2, hg3, h1, h2]
  show McManamon.get_criterion _ fr x y d = _
  rw [McManamon.get_criterion]
  simp only [router]
  simp only [CritTripple.mk.injEq]
  refine ⟨?_, ?_, ?_⟩
  · have : ∀ j : ℤ, ((intRange (-hw) (hw + 1)).map (g1 j)).sum
        = ((intRange (-hw) (hw + 1)).map (fun i => t i j)).sum
          - t (-hw) j - (if semiW p = 0 then 0 else t hw j) := by
      intro j
      rw [← hT j, hL j, hR j]
      ring
    calc ((intRange (-hh) (hh + 1)).map
            (fun j => ((intRange (-hw) (hw + 1)).map (g1 j)).sum)).sum
          + ((intRange (-hh) (hh + 1)).map
            (fun j => ((intRange (-hw) (hw + 1)).map (g2 j)).sum)).sum
          + ((intRange (-hh) (hh + 1)).map
            (fun j => ((intRange (-hw) (hw + 1)).map (g3 j)).sum)).sum
        = ((intRange (-hh) (hh + 1)).map
            (fun j => ((intRange (-hw) (hw + 1)).map (fun i => t i j)).sum)).sum := by
          rw [← sum_map_add, ← sum_map_add]
          refine congrArg _ (List.map_congr_left fun j _ => ?_)
          rw [← hT j]
      _ = ((intRange (-hw) (hw + 1)).map
            (fun i => ((intRange (-hh) (hh + 1)).map (fun j => t i j)).sum)).sum :=
          sum_map_swap _ _ _
      _ = ((intRange (-hw) (hw + 1)).map
            (fun i => colSum fr d (semiH p) ((x : ℤ) + i) (y : ℤ))).sum := by
          refine congrArg _ (List.map_congr_left fun i _ => ?_)
          rw [colSum, ← hhh]
  · rw [show (fun j => ((intRange (-hw) (hw + 1)).map (g2 j)).sum) = fun j => t (-hw) j
      from funext hL]
    rw [colSum, ← hhh]
    refine congrArg _ (List.map_congr_left fun j _ => ?_)
    simp only [ht]
    rw [show (x : ℤ) + -hw = (x : ℤ) - hw by ring]
  · by_cases h0 : semiW p = 0
    · rw [if_pos h0]
      rw [List.sum_eq_zero]
      intro q hq
      rcases List.mem_map.mp hq with ⟨j, _, rfl⟩
      rw [hR j, if_pos h0]
    · rw [if_neg h0]
      rw [show (fun j => ((intRange (-hw) (hw + 1)).map (g3 j)).sum)
          = fun j => t hw j from funext fun j => by rw [hR j, if_neg h0]]
      rw [colSum, ← hhh]

/-- Closed form of `get_criterion_fast`: both columns are recomputed as
genuine column sums; `new_crit` is the top term of the right column;
`old_crit` is the right-column term one row below the window. -/
theorem get_criterion_fast_eq (p : Params) (fr : StereoFrame) (x y d : ℕ)
    (lt : CritTripple) (bv : ℚ) :
    (McManamon.new p).get_criterion_fast fr x y d lt bv =
      { total := lt.total - lt.left_col + bv
          + absdiff fr d ((x : ℤ) + (semiW p : ℤ)) ((y : ℤ) - (semiH p : ℤ))
          - absdiff fr d ((x : ℤ) + (semiW p : ℤ)) ((y : ℤ) + (semiH p : ℤ) + 1)
        left_col := colSum fr d (semiH p) ((x : ℤ) - (semiW p : ℤ)) (y : ℤ)
        right_col := colSum fr d (semiH p) ((x : ℤ) + (semiW p : ℤ)) (y : ℤ) } := by
  set hw : ℤ := (semiW p : ℤ) with hhw
  set hh : ℤ := (semiH p : ℤ) with hhh
  set aL : ℤ → ℚ := fun j => absdiff fr d ((x : ℤ) + -hw) ((y : ℤ) + j) with haL
  set aR : ℤ → ℚ := fun j => absdiff fr d ((x : ℤ) + (hw + 1) - 1) ((y : ℤ) + j)
    with haR
  have hcons : intRange (-hh) (hh + 1) = -hh :: intRange (-hh + 1) (hh + 1) :=
    intRange_cons (by omega)
  have hfold : (intRange (-hh) (hh + 1)).foldl
      (fun s j =>
        let xi_left := (x : ℤ) + -hw
        let xi_right := (x : ℤ) + (hw + 1) - 1
        let yj := (y : ℤ) + j
        let left_col := s.1 + absdiff fr d xi_left yj
        let right_col := s.2.1 + absdiff fr d xi_right yj
        let new_crit := if j = -hh then right_col else s.2.2
        (left_col, right_col, new_crit))
      ((0 : ℚ), (0 : ℚ), (0 : ℚ))
      = (((intRange (-hh) (hh + 1)).map aL).sum,
          ((intRange (-hh) (hh + 1)).map aR).sum, aR (-hh)) := by
    conv_lhs => rw [hcons]
    rw [List.foldl_cons]
    dsimp only
    rw [if_pos rfl]
    have htail := foldl_addPair
      (fun (s : ℚ × ℚ × ℚ) (j : ℤ) =>
        let xi_left := (x : ℤ) + -hw
        let xi_right := (x : ℤ) + (hw + 1) - 1
        let yj := (y : ℤ) + j
        let left_col := s.1 + absdiff fr d xi_left yj
        let right_col := s.2.1 + absdiff fr d xi_right yj
        let new_crit := if j = -hh then right_col else s.2.2
        (left_col, right_col, new_crit))
      aL aR
      (fun (s : ℚ × ℚ × ℚ) (j : ℤ) => if j = -hh then s.2.1 + aR j else s.2.2)
      (intRange (-hh + 1) (hh + 1)) (fun (s : ℚ × ℚ × ℚ) (j : ℤ) _ => rfl)
      ((0 : ℚ) + aL (-hh), (0 : ℚ) + aR (-hh), (0 : ℚ) + aR (-hh))
    have hthird : ((intRange (-hh + 1) (hh + 1)).foldl
        (fun s j =>
          let xi_left := (x : ℤ) + -hw
          let xi_right := (x : ℤ) + (hw + 1) - 1
          let yj := (y : ℤ) + j
          let left_col := s.1 + absdiff fr d xi_left yj
          let right_col := s.2.1 + absdiff fr d xi_right yj
          let new_crit := if j = -hh then right_col else s.2.2
          (left_col, right_col, new_crit))
        ((0 : ℚ) + aL (-hh), (0 : ℚ) + aR (-hh), (0 : ℚ) + aR (-hh))).2.2
        = (0 : ℚ) + aR (-hh) := by
      refine foldl_preserve (fun (s : ℚ × ℚ × ℚ) => s.2.2 = (0 : ℚ) + aR (-hh)) _ _ _ rfl
        (fun s' j hj hs' => ?_)
      have hne : j ≠ -hh := by
        have := mem_intRange.mp hj
        omega
      dsimp only
      rw [if_neg hne]
      exact hs'
    have hfin : ∀ r : ℚ × ℚ × ℚ, r.1 = (0 : ℚ) + aL (-hh) + ((intRange (-hh + 1) (hh + 1)).map aL).sum →
        r.2.1 = (0 : ℚ) + aR (-hh) + ((intRange (-hh + 1) (hh + 1)).map aR).sum →
        r.2.2 = (0 : ℚ) + aR (-hh) →
        r = (((intRange (-hh) (hh + 1)).map aL).sum,
          ((intRange (-hh) (hh + 1)).map aR).sum, aR (-hh)) := by
      intro r h1 h2 h3
      have hr : r = (r.1, r.2.1, r.2.2) := rfl
      rw [hr, h1, h2, h3, hcons, List.map_cons, List.sum_cons, List.map_cons,
        List.sum_cons]
      refine congrArg₂ _ (by ring) (congrArg₂ _ (by ring) (by ring))
    exact hfin _ htail.1 htail.2 hthird
  have hcL : colSum fr d (semiH p) ((x : ℤ) - hw) (y : ℤ)
      = ((intRange (-hh) (hh + 1)).map aL).sum := by
    rw [colSum, ← hhh]
    refine congrArg _ (List.map_congr_left fun j _ => ?_)
    rw [haL]
    rw [show (x : ℤ) + -hw = (x : ℤ) - hw by ring]
  have hcR : colSum fr d (semiH p) ((x : ℤ) + hw) (y : ℤ)
      = ((intRange (-hh) (hh + 1)).map aR).sum := by
    rw [colSum, ← hhh]
    refine congrArg _ (List.map_congr_left fun j _ => ?_)
    rw [haR]
    rw [show (x : ℤ) + (hw + 1) - 1 = (x : ℤ) + hw by ring]
  show McManamon.get_criterion_fast _ fr x y d lt bv = _
  rw [McManamon.get_criterion_fast]
  simp only [new_xRangeStart, new_xRangeEnd, new_yRangeStart, new_yRangeEnd,
    ← hhw, ← hhh]
  rw [hfold]
  simp only [CritTripple.mk.injEq]
  refine ⟨?_, hcL.symm, hcR.symm⟩
  simp only [haR]
  rw [show (x : ℤ) + (hw + 1) - 1 = (x : ℤ) + hw by ring,
    show (y : ℤ) + -hh = (y : ℤ) - hh by ring,
    show (y : ℤ) + (hh + 1) = (y : ℤ) + hh + 1 by ring]

/-- The vertical one-row slide of a column sum. -/
theorem colSum_shift_row (fr : StereoFrame) (d : ℕ) (hhn : ℕ) (c yy : ℤ) :
    colSum fr d hhn c (yy + 1)
      = colSum fr d hhn c yy - absdiff fr d c (yy - hhn)
        + absdiff fr d c (yy + hhn + 1) := by
  set hh : ℤ := (hhn : ℤ) with hhh
  set a : ℤ → ℚ := fun j => absdiff fr d c (yy + j) with ha
  have hshift : (intRange (-hh) (hh + 1)).map (fun j => absdiff fr d c (yy + 1 + j))
      = (intRange (-hh + 1) (hh + 1 + 1)).map a := by
    rw [intRange_shift (-hh) (hh + 1) 1, List.map_map]
    refine (List.map_congr_left fun j _ => ?_).symm
    simp only [Function.comp, ha]
    rw [show yy + (j + 1) = yy + 1 + j by ring]
  have hcons2 : intRange (-hh) (hh + 1 + 1) = -hh :: intRange (-hh + 1) (hh + 1 + 1) :=
    intRange_cons (by omega)
  have hsnoc := intRange_snoc (s := -hh) (e := hh + 1 + 1) (by omega)
  rw [show (hh + 1 + 1 - 1 : ℤ) = hh + 1 by ring] at hsnoc
  have key : ((intRange (-hh) (hh + 1)).map (fun j => absdiff fr d c (yy + 1 + j))).sum
      = ((intRange (-hh) (hh + 1)).map a).sum + a (hh + 1) - a (-hh) := by
    have h1 : ((intRange (-hh) (hh + 1 + 1)).map a).sum
        = a (-hh) + ((intRange (-hh + 1) (hh + 1 + 1)).map a).sum := by
      rw [hcons2, List.map_cons, List.sum_cons]
    have h2 : ((intRange (-hh) (hh + 1 + 1)).map a).sum
        = ((intRange (-hh) (hh + 1)).map a).sum + a (hh + 1) := by
      rw [hsnoc, List.map_append, List.sum_append]
      simp
    rw [hshift]
    have := h1.symm.trans h2
    linarith
  rw [colSum, colSum, ← hhh, key]
  simp only [ha]
  rw [show yy + (hh + 1) = yy + hh + 1 by ring, show yy + -hh = yy - hh by ring]
  ring

/-- The two-axis sliding-window identity: with a correlation window of
half-width at least 1, `get_criterion_fast` seeded with the slow triple of
the left neighbour and the slow right-column of the pixel one row below
reproduces the slow `get_criterion` triple exactly. -/
theorem fast_matches_slow (p : Params) (fr : StereoFrame) (x y d : ℕ)
    (hw1 : 1 ≤ semiW p) (hx : 1 ≤ x) :
    (McManamon.new p).get_criterion_fast fr x y d
        ((McManamon.new p).get_criterion fr (x - 1) y d)
        (((McManamon.new p).get_criterion fr x (y + 1) d).right_col)
      = (McManamon.new p).get_criterion fr x y d := by
  set hw : ℤ := (semiW p : ℤ) with hhw
  have hw0 : ¬(semiW p = 0) := by omega
  have hwpos : (1 : ℤ) ≤ hw := by
    rw [hhw]
    exact_mod_cast hw1
  have hc1 : ((x - 1 : ℕ) : ℤ) = (x : ℤ) - 1 := by omega
  have hc2 : ((y + 1 : ℕ) : ℤ) = (y : ℤ) + 1 := by omega
  rw [get_criterion_fast_eq, get_criterion_eq, get_criterion_eq, get_criterion_eq,
    hc1, hc2]
  simp only [CritTripple.mk.injEq, if_neg hw0, ← hhw]
  refine ⟨?_, trivial, trivial⟩
  have hA1 : (intRange (-hw) (hw + 1)).map
        (fun i => colSum fr d (semiH p) ((x : ℤ) - 1 + i) (y : ℤ))
      = (intRange (-hw - 1) hw).map
        (fun i => colSum fr d (semiH p) ((x : ℤ) + i) (y : ℤ)) := by
    have hsh := intRange_shift (-hw - 1) hw 1
    rw [show (-hw - 1 + 1 : ℤ) = -hw from by ring] at hsh
    rw [hsh, List.map_map]
    refine (List.map_congr_left fun i _ => ?_).symm
    simp only [Function.comp]
    rw [show (x : ℤ) + i = (x : ℤ) - 1 + (i + 1) by ring]
  have hA2 : intRange (-hw - 1) hw = (-hw - 1) :: intRange (-hw) hw := by
    have := intRange_cons (s := -hw - 1) (e := hw) (by omega)
    rw [show (-hw - 1 + 1 : ℤ) = -hw from by ring] at this
    exact this
  have hA : ((intRange (-hw) (hw + 1)).map
        (fun i => colSum fr d (semiH p) ((x : ℤ) - 1 + i) (y : ℤ))).sum
      = colSum fr d (semiH p) ((x : ℤ) + (-hw - 1)) (y : ℤ)
        + ((intRange (-hw) hw).map
            (fun i => colSum fr d (semiH p) ((x : ℤ) + i) (y : ℤ))).sum := by
    rw [hA1, hA2, List.map_cons, List.sum_cons]
  have hB := colSum_shift_row fr d (semiH p) ((x : ℤ) + hw) (y : ℤ)
  have hC : ((intRange (-hw) (hw + 1)).map
        (fun i => colSum fr d (semiH p) ((x : ℤ) + i) (y : ℤ))).sum
      = ((intRange (-hw) hw).map
          (fun i => colSum fr d (semiH p) ((x : ℤ) + i) (y : ℤ))).sum
        + colSum fr d (semiH p) ((x : ℤ) + hw) (y : ℤ) := by
    have hsn := intRange_snoc (s := -hw) (e := hw + 1) (by omega)
    rw [show (hw + 1 - 1 : ℤ) = hw from by ring] at hsn
    rw [hsn, List.map_append, List.sum_append]
    simp
  have hL : colSum fr d (semiH p) ((x : ℤ) - 1 - hw) (y : ℤ)
      = colSum fr d (semiH p) ((x : ℤ) + (-hw - 1)) (y : ℤ) := by
    rw [show (x : ℤ) - 1 - hw = (x : ℤ) + (-hw - 1) by ring]
  rw [hA, hB, hC, hL]
  ring

/-! ## Properties of the minimum-index fold and sub-pixel refinement -/

theorem minIndexOf_go (crits : List ℚ) :
    ∀ (t : List ℚ) (n m : ℕ), crits.drop n = t → m < crits.length → m ≤ n →
      (∀ k, k < n → crits.getD m 0 ≤ crits.getD k 0) →
      (∀ k, k < m → crits.getD m 0 < crits.getD k 0) →
      ((List.enumFrom n t).foldl
            (fun min_idx p => if p.2 < crits.getD min_idx 0 then p.1 else min_idx) m)
            < crits.length
        ∧ (∀ k, k < crits.length →
            crits.getD ((List.enumFrom n t).foldl
              (fun min_idx p => if p.2 < crits.getD min_idx 0 then p.1 else min_idx) m) 0
              ≤ crits.getD k 0)
        ∧ (∀ k, k < (List.enumFrom n t).foldl
              (fun min_idx p => if p.2 < crits.getD min_idx 0 then p.1 else min_idx) m →
            crits.getD ((List.enumFrom n t).foldl
              (fun min_idx p => if p.2 < crits.getD min_idx 0 then p.1 else min_idx) m) 0
              < crits.getD k 0) := by
  intro t
  induction t with
  | nil =>
    intro n m hdrop hm hmn hmin hfirst
    have hlen : crits.length ≤ n := by
      by_contra hcon
      push_neg at hcon
      have := List.drop_eq_getElem_cons hcon
      rw [hdrop] at this
      cases this
    simp only [List.enumFrom, List.foldl_nil]
    exact ⟨hm, fun k hk => hmin k (lt_of_lt_of_le hk hlen), hfirst⟩
  | cons v t' ih =>
    intro n m hdrop hm hmn hmin hfirst
    have hn : n < crits.length := by
      by_contra hcon
      push_neg at hcon
      rw [List.drop_eq_nil_of_le hcon] at hdrop
      cases hdrop
    have hdec := List.drop_eq_getElem_cons hn
    rw [hdrop] at hdec
    have hv : v = crits[n] := (List.cons.injEq _ _ _ _ ▸ hdec).1
    have ht' : crits.drop (n + 1) = t' := ((List.cons.injEq _ _ _ _ ▸ hdec).2).symm
    have hvg : v = crits.getD n 0 := by
      rw [hv, List.getD_eq_getElem crits 0 hn]
    simp only [List.enumFrom, List.foldl_cons]
    by_cases hlt : v < crits.getD m 0
    · rw [if_pos hlt]
      refine ih (n + 1) n ht' hn (Nat.le_succ n) (fun k hk => ?_) (fun k hk => ?_)
      · rcases Nat.lt_succ_iff_lt_or_eq.mp hk with hk' | rfl
        · exact le_trans (by rw [← hvg]; exact le_of_lt hlt) (hmin k hk')
        · exact le_refl _
      · exact lt_of_lt_of_le (by rw [← hvg]; exact hlt) (hmin k hk)
    · rw [if_neg hlt]
      push_neg at hlt
      refine ih (n + 1) m ht' hm (le_trans hmn (Nat.le_succ n))
        (fun k hk => ?_) hfirst
      rcases Nat.lt_succ_iff_lt_or_eq.mp hk with hk' | rfl
      · exact hmin k hk'
      · rw [hvg] at hlt
        exact hlt

theorem minIndexOf_lt_length {crits : List ℚ} (h : crits ≠ []) :
    minIndexOf crits < crits.length := by
  have h0 : 0 < crits.length := List.length_pos.mpr h
  exact (minIndexOf_go crits crits 0 0 rfl h0 (Nat.zero_le 0)
    (fun k hk => absurd hk (Nat.not_lt_zero k))
    (fun k hk => absurd hk (Nat.not_lt_zero k))).1

theorem minIndexOf_min {crits : List ℚ} (h : crits ≠ []) (k : ℕ)
    (hk : k < crits.length) :
    crits.getD (minIndexOf crits) 0 ≤ crits.getD k 0 := by
  have h0 : 0 < crits.length := List.length_pos.mpr h
  exact (minIndexOf_go crits crits 0 0 rfl h0 (Nat.zero_le 0)
    (fun k hk => absurd hk (Nat.not_lt_zero k))
    (fun k hk => absurd hk (Nat.not_lt_zero k))).2.1 k hk

theorem minIndexOf_first {crits : List ℚ} (k : ℕ) (hk : k < minIndexOf crits) :
    crits.getD (minIndexOf crits) 0 < crits.getD k 0 := by
  rcases eq_or_ne crits [] with rfl | h
  · simp [minIndexOf] at hk
  · exact (minIndexOf_go crits crits 0 0 rfl (List.length_pos.mpr h) (Nat.zero_le 0)
      (fun j hj => absurd hj (Nat.not_lt_zero j))
      (fun j hj => absurd hj (Nat.not_lt_zero j))).2.2 k hk

/-- The parabolic-fit denominator of the sub-pixel interpolation
(src/mcmanamon.rs lines 315-318); `dispValOf`'s refinement branch divides
by exactly this expression. -/
def refineDenom (crits : List ℚ) : ℚ :=
  let min_index := minIndexOf crits
  let c_left := crits.getD (min_index - 1) 0
  let c_right := crits.getD (min_index + 1) 0
  if c_right < c_left then 2 * (c_left - crits.getD min_index 0)
  else 2 * (c_right - crits.getD min_index 0)

theorem dispValOf_refined (min_dyn : ℕ) (crits : List ℚ)
    (h0 : minIndexOf crits ≠ 0) (hl : minIndexOf crits ≠ crits.length - 1)
    (h3 : ¬(crits.length < 3)) :
    dispValOf min_dyn crits = ((min_dyn + minIndexOf crits : ℕ) : ℚ)
      + (crits.getD (minIndexOf crits - 1) 0 - crits.getD (minIndexOf crits + 1) 0)
        / refineDenom crits := by
  simp only [dispValOf, refineDenom]
  rw [if_neg (by push_neg; exact ⟨h0, hl, not_lt.mp h3⟩)]

theorem refineDenom_pos (crits : List ℚ)
    (h0 : minIndexOf crits ≠ 0) (hl : minIndexOf crits ≠ crits.length - 1)
    (h3 : ¬(crits.length < 3)) :
    0 < refineDenom crits := by
  push_neg at h3
  have hne : crits ≠ [] := by
    intro hc
    rw [hc] at h3
    simp at h3
  have hmi := minIndexOf_lt_length hne
  have hcl : crits.getD (minIndexOf crits) 0 < crits.getD (minIndexOf crits - 1) 0 :=
    minIndexOf_first (minIndexOf crits - 1) (by omega)
  have hcr : crits.getD (minIndexOf crits) 0 ≤ crits.getD (minIndexOf crits + 1) 0 :=
    minIndexOf_min hne (minIndexOf crits + 1) (by omega)
  simp only [refineDenom]
  by_cases hc : crits.getD (minIndexOf crits + 1) 0 < crits.getD (minIndexOf crits - 1) 0
  · rw [if_pos hc]
    linarith
  · rw [if_neg hc]
    push_neg at hc
    linarith

theorem refine_offset_abs (crits : List ℚ)
    (h0 : minIndexOf crits ≠ 0) (hl : minIndexOf crits ≠ crits.length - 1)
    (h3 : ¬(crits.length < 3)) :
    |(crits.getD (minIndexOf crits - 1) 0 - crits.getD (minIndexOf crits + 1) 0)
        / refineDenom crits| ≤ 1 / 2 := by
  have h3' := h3
  push_neg at h3'
  have hne : crits ≠ [] := by
    intro hc
    rw [hc] at h3'
    simp at h3'
  have hmi := minIndexOf_lt_length hne
  have hcl : crits.getD (minIndexOf crits) 0 < crits.getD (minIndexOf crits - 1) 0 :=
    minIndexOf_first (minIndexOf crits - 1) (by omega)
  have hcr : crits.getD (minIndexOf crits) 0 ≤ crits.getD (minIndexOf crits + 1) 0 :=
    minIndexOf_min hne (minIndexOf crits + 1) (by omega)
  have hdpos := refineDenom_pos crits h0 hl h3
  rw [abs_div, abs_of_pos hdpos, div_le_iff₀ hdpos]
  simp only [refineDenom] at hdpos ⊢
  by_cases hc : crits.getD (minIndexOf crits + 1) 0 < crits.getD (minIndexOf crits - 1) 0
  · rw [if_pos hc]
    rw [abs_of_pos (by linarith)]
    linarith
  · rw [if_neg hc]
    push_neg at hc
    rw [abs_of_nonpos (by linarith)]
    linarith

/-- Bounds on the selected disparity value: it lies within the candidate
interval, with half a candidate of slack absorbed by the edge cases. -/
theorem dispValOf_bounds (min_dyn : ℕ) (crits : List ℚ) (h : crits ≠ []) :
    (min_dyn : ℚ) ≤ dispValOf min_dyn crits
      ∧ dispValOf min_dyn crits ≤ (min_dyn : ℚ) + crits.length - 1 := by
  have hmi := minIndexOf_lt_length h
  by_cases hedge : minIndexOf crits = 0 ∨ minIndexOf crits = crits.length - 1
      ∨ crits.length < 3
  · have heq : dispValOf min_dyn crits = ((min_dyn + minIndexOf crits : ℕ) : ℚ) := by
      simp only [dispValOf]
      rw [if_pos hedge]
    rw [heq]
    push_cast
    constructor
    · have : (0 : ℚ) ≤ (minIndexOf crits : ℚ) := Nat.cast_nonneg _
      linarith
    · have hc : (minIndexOf crits : ℚ) + 1 ≤ (crits.length : ℚ) := by
        exact_mod_cast hmi
      linarith
  · push_neg at hedge
    obtain ⟨h0, hl, h3⟩ := hedge
    rw [dispValOf_refined min_dyn crits h0 hl (by omega)]
    have habs := abs_le.mp (refine_offset_abs crits h0 hl (by omega))
    have hmi1 : (1 : ℚ) ≤ (minIndexOf crits : ℚ) := by
      exact_mod_cast Nat.one_le_iff_ne_zero.mpr h0
    have hmi2 : (minIndexOf crits : ℚ) + 2 ≤ (crits.length : ℚ) := by
      have hn : minIndexOf crits + 2 ≤ crits.length := by omega
      exact_mod_cast hn
    push_cast
    constructor
    · linarith [habs.1]
    · linarith [habs.2]

/-! ## Characterisation of the candidate-disparity loop -/

/-- The criterion event emitted for candidate `d` at pixel `(x, y)`. -/
def evAt (m : McManamon) (fr : StereoFrame) (x y : ℕ)
    (leftCopy : ℕ → Option CritTripple) (belowCopy : ℕ → Option (ℚ × ℕ))
    (d : ℕ) : CritEvent :=
  ⟨x, y, d, usedOf leftCopy belowCopy d, m.critAt fr x y leftCopy belowCopy d⟩

theorem dLoop_spec_aux (m : McManamon) (fr : StereoFrame) (x y : ℕ)
    (leftCopy : ℕ → Option CritTripple) (belowCopy : ℕ → Option (ℚ × ℕ)) :
    ∀ (n a : ℕ) (st : DState),
      ((natRange a (a + n)).foldl (dStep m fr x y leftCopy belowCopy) st).left
          = (fun d' => if a ≤ d' ∧ d' < a + n
              then some (m.critAt fr x y leftCopy belowCopy d') else st.left d')
        ∧ ((natRange a (a + n)).foldl (dStep m fr x y leftCopy belowCopy) st).belowCol
          = (fun d' => if a ≤ d' ∧ d' < a + n
              then some ((m.critAt fr x y leftCopy belowCopy d').right_col, y)
              else st.belowCol d')
        ∧ ((natRange a (a + n)).foldl (dStep m fr x y leftCopy belowCopy) st).crits
          = st.crits ++ (natRange a (a + n)).map
              (fun d => (m.critAt fr x y leftCopy belowCopy d).total)
        ∧ ((natRange a (a + n)).foldl (dStep m fr x y leftCopy belowCopy) st).events
          = st.events ++ (natRange a (a + n)).map (evAt m fr x y leftCopy belowCopy)
  | 0, a, st => by
    rw [natRange_eq_nil (by omega)]
    simp only [List.foldl_nil, List.map_nil, List.append_nil]
    refine ⟨funext fun d' => ?_, funext fun d' => ?_, trivial, trivial⟩
    · rw [if_neg (by omega)]
    · rw [if_neg (by omega)]
  | n + 1, a, st => by
    rw [show a + (n + 1) = (a + 1) + n by omega]
    rw [natRange_cons (by omega), List.foldl_cons]
    have ih := dLoop_spec_aux m fr x y leftCopy belowCopy n (a + 1)
      (dStep m fr x y leftCopy belowCopy st a)
    refine ⟨?_, ?_, ?_, ?_⟩
    · rw [ih.1]
      funext d'
      by_cases h1 : a + 1 ≤ d' ∧ d' < a + 1 + n
      · rw [if_pos h1, if_pos (by omega)]
      · rw [if_neg h1]
        simp only [dStep]
        by_cases h2 : d' = a
        · rw [if_pos h2, if_pos (by omega), h2]
        · rw [if_neg h2, if_neg (by omega)]
    · rw [ih.2.1]
      funext d'
      by_cases h1 : a + 1 ≤ d' ∧ d' < a + 1 + n
      · rw [if_pos h1, if_pos (by omega)]
      · rw [if_neg h1]
        simp only [dStep]
        by_cases h2 : d' = a
        · rw [if_pos h2, if_pos (by omega), h2]
        · rw [if_neg h2, if_neg (by omega)]
    · rw [ih.2.2.1]
      simp only [dStep, List.map_cons]
      rw [List.append_assoc]
      rfl
    · rw [ih.2.2.2]
      simp only [dStep, List.map_cons]
      rw [List.append_assoc]
      rfl

theorem dLoop_spec (m : McManamon) (fr : StereoFrame) (x y : ℕ)
    (leftCopy : ℕ → Option CritTripple) (belowCopy : ℕ → Option (ℚ × ℕ))
    (a b : ℕ) (st : DState) :
    ((natRange a b).foldl (dStep m fr x y leftCopy belowCopy) st).left
        = (fun d' => if a ≤ d' ∧ d' < b
            then some (m.critAt fr x y leftCopy belowCopy d') else st.left d')
      ∧ ((natRange a b).foldl (dStep m fr x y leftCopy belowCopy) st).belowCol
        = (fun d' => if a ≤ d' ∧ d' < b
            then some ((m.critAt fr x y leftCopy belowCopy d').right_col, y)
            else st.belowCol d')
      ∧ ((natRange a b).foldl (dStep m fr x y leftCopy belowCopy) st).crits
        = st.crits ++ (natRange a b).map
            (fun d => (m.critAt fr x y leftCopy belowCopy d).total)
      ∧ ((natRange a b).foldl (dStep m fr x y leftCopy belowCopy) st).events
        = st.events ++ (natRange a b).map (evAt m fr x y leftCopy belowCopy) := by
  by_cases hab : a ≤ b
  · have hb : b = a + (b - a) := by omega
    rw [hb]
    exact dLoop_spec_aux m fr x y leftCopy belowCopy (b - a) a st
  · rw [natRange_eq_nil (by omega)]
    simp only [List.foldl_nil, List.map_nil, List.append_nil]
    refine ⟨funext fun d' => ?_, funext fun d' => ?_, trivial, trivial⟩
    · rw [if_neg (by omega)]
    · rw [if_neg (by omega)]

theorem dLoop_left (m : McManamon) (fr : StereoFrame) (x y : ℕ)
    (leftCopy : ℕ → Option CritTripple) (belowCopy : ℕ → Option (ℚ × ℕ))
    (a b : ℕ) (st : DState) :
    ((natRange a b).foldl (dStep m fr x y leftCopy belowCopy) st).left
      = fun d' => if a ≤ d' ∧ d' < b
          then some (m.critAt fr x y leftCopy belowCopy d') else st.left d' :=
  (dLoop_spec m fr x y leftCopy belowCopy a b st).1

theorem dLoop_belowCol (m : McManamon) (fr : StereoFrame) (x y : ℕ)
    (leftCopy : ℕ → Option CritTripple) (belowCopy : ℕ → Option (ℚ × ℕ))
    (a b : ℕ) (st : DState) :
    ((natRange a b).foldl (dStep m fr x y leftCopy belowCopy) st).belowCol
      = fun d' => if a ≤ d' ∧ d' < b
          then some ((m.critAt fr x y leftCopy belowCopy d').right_col, y)
          else st.belowCol d' :=
  (dLoop_spec m fr x y leftCopy belowCopy a b st).2.1

theorem dLoop_crits (m : McManamon) (fr : StereoFrame) (x y : ℕ)
    (leftCopy : ℕ → Option CritTripple) (belowCopy : ℕ → Option (ℚ × ℕ))
    (a b : ℕ) (st : DState) :
    ((natRange a b).foldl (dStep m fr x y leftCopy belowCopy) st).crits
      = st.crits ++ (natRange a b).map
          (fun d => (m.critAt fr x y leftCopy belowCopy d).total) :=
  (dLoop_spec m fr x y leftCopy belowCopy a b st).2.2.1

theorem dLoop_events (m : McManamon) (fr : StereoFrame) (x y : ℕ)
    (leftCopy : ℕ → Option CritTripple) (belowCopy : ℕ → Option (ℚ × ℕ))
    (a b : ℕ) (st : DState) :
    ((natRange a b).foldl (dStep m fr x y leftCopy belowCopy) st).events
      = st.events ++ (natRange a b).map (evAt m fr x y leftCopy belowCopy) :=
  (dLoop_spec m fr x y leftCopy belowCopy a b st).2.2.2

/-! ## Characterisation of one pixel step -/

/-- The criterion triple the sweep computes at candidate `d` of pixel
`(x, y)`, given the current row state. -/
def pixelTripAt (m : McManamon) (fr : StereoFrame) (rs : RowState)
    (x y : ℕ) : ℕ → CritTripple :=
  m.critAt fr x y rs.leftCrits (rs.sw.below x)

/-- The criterion list accumulated at pixel `(x, y)`. -/
def pixelCritsAt (m : McManamon) (fr : StereoFrame) (rs : RowState)
    (x y : ℕ) : List ℚ :=
  (natRange rs.sw.minDyn rs.sw.maxDyn).map (fun d => (pixelTripAt m fr rs x y d).total)

/-- The disparity value selected and written at pixel `(x, y)`. -/
def pixelDispAt (m : McManamon) (fr : StereoFrame) (rs : RowState)
    (x y : ℕ) : ℚ :=
  dispValOf rs.sw.minDyn (pixelCritsAt m fr rs x y)

theorem processPixel_eq (m : McManamon) (fr : StereoFrame) (y : ℕ)
    (rs : RowState) (x : ℕ)
    (hpan : rs.sw.panicked = false) (hle : rs.sw.minDyn ≤ rs.sw.maxDyn) :
    processPixel m fr y rs x =
      { sw := { rs.sw with
          below := fun x' d => if x' = x
              then (if rs.sw.minDyn ≤ d ∧ d < rs.sw.maxDyn
                then some ((pixelTripAt m fr rs x y d).right_col, y) else none)
              else rs.sw.below x' d
          minDisp := if pixelDispAt m fr rs x y > rs.sw.maxDisp then rs.sw.minDisp
            else if pixelDispAt m fr rs x y < rs.sw.minDisp then pixelDispAt m fr rs x y
            else rs.sw.minDisp
          maxDisp := if pixelDispAt m fr rs x y > rs.sw.maxDisp
            then pixelDispAt m fr rs x y else rs.sw.maxDisp
          pixels := rs.sw.pixels ++ [⟨x, y, rs.sw.minDyn, rs.sw.maxDyn,
            pixelCritsAt m fr rs x y, pixelDispAt m fr rs x y⟩]
          events := rs.sw.events ++ (natRange rs.sw.minDyn rs.sw.maxDyn).map
            (evAt m fr x y rs.leftCrits (rs.sw.below x)) }
        leftCrits := fun d' => if rs.sw.minDyn ≤ d' ∧ d' < rs.sw.maxDyn
          then some (pixelTripAt m fr rs x y d') else none
        minRow := if pixelDispAt m fr rs x y > rs.maxRow then rs.minRow
          else if pixelDispAt m fr rs x y < rs.minRow then pixelDispAt m fr rs x y
          else rs.minRow
        maxRow := if pixelDispAt m fr rs x y > rs.maxRow
          then pixelDispAt m fr rs x y else rs.maxRow } := by
  rw [processPixel, if_neg (by rw [hpan]; exact Bool.false_ne_true),
    if_neg (not_lt.mpr hle)]
  simp only [dLoop_left, dLoop_belowCol, dLoop_crits, dLoop_events,
    List.nil_append, pixelTripAt, pixelCritsAt, pixelDispAt]

/-! ## Arithmetic of the RangeController update -/

theorem updMaxDyn_le (p : Params) (mr : ℚ) :
    updMaxDyn p mr ≤ p.max_disparity := by
  simp only [updMaxDyn]
  split
  · exact le_refl _
  · omega

theorem updMaxDyn_ge (p : Params) (mr : ℚ)
    (h : (p.min_disparity : ℚ) ≤ mr) (hcfg : p.min_disparity ≤ p.max_disparity) :
    p.min_disparity ≤ updMaxDyn p mr := by
  have hceil : (p.min_disparity : ℤ) ≤ ⌈mr⌉ := by
    have := le_trans h (Int.le_ceil mr)
    exact_mod_cast this
  simp only [updMaxDyn]
  split
  · exact hcfg
  · omega

theorem updMinDyn_ge (p : Params) (mnr : ℚ) :
    p.min_disparity ≤ updMinDyn p mnr := by
  simp only [updMinDyn]
  set mn0 : ℚ := (⌊mnr⌋ : ℚ) - (p.dyn_disparity_threshold : ℚ) with hmn0
  set mn1 : ℚ := if mn0 < 0 then 0 else mn0 with hmn1
  set mn2 : ℚ := if mn1 < (p.min_disparity : ℚ) then (p.min_disparity : ℚ) else mn1
    with hmn2
  have h2 : (p.min_disparity : ℚ) ≤ mn2 := by
    rw [hmn2]
    split
    · exact le_refl _
    · linarith [not_lt.mp (by assumption : ¬(mn1 < (p.min_disparity : ℚ)))]
  have hfl : (p.min_disparity : ℤ) ≤ ⌊mn2⌋ := by
    rw [Int.le_floor]
    exact_mod_cast h2
  omega

theorem updMinDyn_le (p : Params) (mnr : ℚ)
    (h : mnr ≤ (p.max_disparity : ℚ)) (hcfg : p.min_disparity ≤ p.max_disparity) :
    updMinDyn p mnr ≤ p.max_disparity := by
  simp only [updMinDyn]
  set mn0 : ℚ := (⌊mnr⌋ : ℚ) - (p.dyn_disparity_threshold : ℚ) with hmn0
  set mn1 : ℚ := if mn0 < 0 then 0 else mn0 with hmn1
  set mn2 : ℚ := if mn1 < (p.min_disparity : ℚ) then (p.min_disparity : ℚ) else mn1
    with hmn2
  have h0 : mn0 ≤ (p.max_disparity : ℚ) := by
    rw [hmn0]
    have hf : (⌊mnr⌋ : ℚ) ≤ mnr := Int.floor_le mnr
    have ht : (0 : ℚ) ≤ (p.dyn_disparity_threshold : ℚ) := Nat.cast_nonneg _
    linarith
  have h1 : mn1 ≤ (p.max_disparity : ℚ) := by
    rw [hmn1]
    split
    · exact_mod_cast Nat.zero_le _
    · exact h0
  have h2 : mn2 ≤ (p.max_disparity : ℚ) := by
    rw [hmn2]
    split
    · exact_mod_cast hcfg
    · exact h1
  have hfl : ⌊mn2⌋ ≤ (p.max_disparity : ℤ) := by
    rw [Int.floor_le_iff]
    calc mn2 ≤ (p.max_disparity : ℚ) := h2
      _ < (p.max_disparity : ℚ) + 1 := by linarith
      _ = ((p.max_disparity : ℤ) : ℚ) + 1 := by push_cast; ring
  omega

theorem upd_chain (p : Params) (mnr mr : ℚ) (hobs : mnr ≤ mr)
    (hle : mnr ≤ (p.max_disparity : ℚ)) (hge : (p.min_disparity : ℚ) ≤ mr)
    (hcfg : p.min_disparity ≤ p.max_disparity) :
    updMinDyn p mnr ≤ updMaxDyn p mr := by
  have hmin_le := updMinDyn_le p mnr hle hcfg
  have hceil : (p.min_disparity : ℤ) ≤ ⌈mr⌉ := by
    have := le_trans hge (Int.le_ceil mr)
    exact_mod_cast this
  have hflcl : ⌊mnr⌋ ≤ ⌈mr⌉ := by
    have h1 : (⌊mnr⌋ : ℚ) ≤ mnr := Int.floor_le mnr
    have h2 : mr ≤ (⌈mr⌉ : ℚ) := Int.le_ceil mr
    have : (⌊mnr⌋ : ℚ) ≤ (⌈mr⌉ : ℚ) := by linarith
    exact_mod_cast this
  simp only [updMaxDyn]
  split
  · exact hmin_le
  · simp only [updMinDyn]
    set mn0 : ℚ := (⌊mnr⌋ : ℚ) - (p.dyn_disparity_threshold : ℚ) with hmn0
    set mn1 : ℚ := if mn0 < 0 then 0 else mn0 with hmn1
    set mn2 : ℚ := if mn1 < (p.min_disparity : ℚ) then (p.min_disparity : ℚ) else mn1
      with hmn2
    have hbound : ⌊mn2⌋ ≤ ⌈mr⌉ + (p.dyn_disparity_threshold : ℤ) := by
      have h2 : mn2 ≤ ((⌈mr⌉ + (p.dyn_disparity_threshold : ℤ) : ℤ) : ℚ) := by
        rw [hmn2]
        split
        · push_cast
          have : ((p.min_disparity : ℤ) : ℚ) ≤ (⌈mr⌉ : ℚ) := by exact_mod_cast hceil
          push_cast at this
          linarith [Nat.cast_nonneg (α := ℚ) p.dyn_disparity_threshold]
        · rw [hmn1]
          split
          · push_cast
            have : ((p.min_disparity : ℤ) : ℚ) ≤ (⌈mr⌉ : ℚ) := by exact_mod_cast hceil
            push_cast at this
            have hmd : (0 : ℚ) ≤ (p.min_disparity : ℚ) := Nat.cast_nonneg _
            linarith [Nat.cast_nonneg (α := ℚ) p.dyn_disparity_threshold]
          · rw [hmn0]
            push_cast
            have : (⌊mnr⌋ : ℚ) ≤ (⌈mr⌉ : ℚ) := by exact_mod_cast hflcl
            linarith [Nat.cast_nonneg (α := ℚ) p.dyn_disparity_threshold]
      have := Int.floor_le_floor h2
      rw [Int.floor_intCast] at this
      exact this
    omega

/-! ## Sweep invariants -/

/-- Properties of every pixel record of the sweep: the dynamic interval in
force was ordered and inside the configured range, the criterion list has
one entry per candidate, the stored value is the selected disparity for
that list, and the pixel lies inside the sweep's iteration bounds. -/
def PixProps (p : Params) (fr : StereoFrame) (rec : PixelRec) : Prop :=
  rec.minDyn ≤ rec.maxDyn
    ∧ p.min_disparity ≤ rec.minDyn ∧ rec.minDyn ≤ p.max_disparity
    ∧ p.min_disparity ≤ rec.maxDyn ∧ rec.maxDyn ≤ p.max_disparity
    ∧ rec.crits.length = rec.maxDyn - rec.minDyn
    ∧ rec.disp = dispValOf rec.minDyn rec.crits
    ∧ p.correlation_window_size.1 + rec.maxDyn ≤ rec.x
    ∧ rec.x < fr.width - p.correlation_window_size.1
    ∧ p.correlation_window_size.2 ≤ rec.y
    ∧ rec.y < fr.height - p.correlation_window_size.2

/-- The dynamic disparity interval endpoints stay within the configured
range (each endpoint separately; the interval itself may invert). -/
def StateInv (p : Params) (st : SweepState) : Prop :=
  p.min_disparity ≤ st.minDyn ∧ st.minDyn ≤ p.max_disparity
    ∧ p.min_disparity ≤ st.maxDyn ∧ st.maxDyn ≤ p.max_disparity

/-- Every live below-cache entry was produced (with its recorded value) by
a criterion event of some visited pixel `(x, r)`, and `r` is the lowest
row at which column `x` has been visited so far: every visit of column
`x` clears and repopulates the whole column. -/
def BelowInv (st : SweepState) : Prop :=
  ∀ x d v r, st.below x d = some (v, r) →
    (∃ e ∈ st.events, e.x = x ∧ e.y = r ∧ e.d = d ∧ e.trip.right_col = v)
      ∧ (∃ pr ∈ st.pixels, pr.x = x ∧ pr.y = r)
      ∧ (∀ pr ∈ st.pixels, pr.x = x → r ≤ pr.y)

/-- Every fast-path consumption consumed a value produced at its own
column, for its own candidate, by a strictly lower-indexed (previously
processed) row, and no row strictly between consumer and producer ever
visited that column. -/
def EventsInv (st : SweepState) : Prop :=
  ∀ e ∈ st.events, ∀ v r, e.usedBelow = some (v, r) →
    e.y < r
      ∧ (∃ e' ∈ st.events, e'.x = e.x ∧ e'.y = r ∧ e'.d = e.d
          ∧ e'.trip.right_col = v)
      ∧ (∀ pr ∈ st.pixels, pr.x = e.x → e.y < pr.y → r ≤ pr.y)

/-- Every criterion event belongs to a visited pixel. -/
def GInv (st : SweepState) : Prop :=
  ∀ e ∈ st.events, ∃ pr ∈ st.pixels, pr.x = e.x ∧ pr.y = e.y

/-- The invariant carried through the column sweep of one row. -/
def RowInv (p : Params) (fr : StereoFrame) (y : ℕ) (rows0 : List RowRec)
    (minD maxD : ℕ) (rs : RowState) : Prop :=
  rs.sw.minDyn = minD ∧ rs.sw.maxDyn = maxD ∧ rs.sw.rows = rows0
    ∧ rs.minRow ≤ (p.max_disparity : ℚ) ∧ (p.min_disparity : ℚ) ≤ rs.maxRow
    ∧ (∀ pr ∈ rs.sw.pixels, PixProps p fr pr)
    ∧ (∀ pr ∈ rs.sw.pixels, y ≤ pr.y)
    ∧ (∀ e ∈ rs.sw.events, y ≤ e.y)
    ∧ BelowInv rs.sw ∧ EventsInv rs.sw ∧ GInv rs.sw

theorem usedOf_below {leftCopy : ℕ → Option CritTripple}
    {belowCopy : ℕ → Option (ℚ × ℕ)} {d : ℕ} {v : ℚ} {r : ℕ}
    (h : usedOf leftCopy belowCopy d = some (v, r)) :
    belowCopy d = some (v, r) := by
  unfold usedOf at h
  rcases hl : leftCopy d with _ | lt <;> rcases hb : belowCopy d with _ | bv <;>
    rw [hl, hb] at h
  · cases h
  · cases h
  · cases h
  · rw [← h]

theorem processPixel_inv (p : Params) (fr : StereoFrame) (m : McManamon)
    (y : ℕ) (rows0 : List RowRec) (minD maxD : ℕ) (rs : RowState) (x : ℕ)
    (hb1 : p.min_disparity ≤ minD) (hb2 : minD ≤ p.max_disparity)
    (hb3 : p.min_disparity ≤ maxD) (hb4 : maxD ≤ p.max_disparity)
    (hx1 : p.correlation_window_size.1 + maxD ≤ x)
    (hx2 : x < fr.width - p.correlation_window_size.1)
    (hy1 : p.correlation_window_size.2 ≤ y)
    (hy2 : y < fr.height - p.correlation_window_size.2)
    (hInv : RowInv p fr y rows0 minD maxD rs)
    (hpx : ∀ pr ∈ rs.sw.pixels, pr.y = y → pr.x < x) :
    RowInv p fr y rows0 minD maxD (processPixel m fr y rs x)
      ∧ (∃ l, (processPixel m fr y rs x).sw.pixels = rs.sw.pixels ++ l
          ∧ ∀ pr ∈ l, pr.x = x ∧ pr.y = y)
      ∧ (∃ l, (processPixel m fr y rs x).sw.events = rs.sw.events ++ l
          ∧ ∀ e ∈ l, e.x = x ∧ e.y = y) := by
  obtain ⟨q1, q2, q3, q4, q5, q6, q7, q8, qB, qE, qG⟩ := hInv
  by_cases hpan : rs.sw.panicked = true
  · rw [processPixel, if_pos hpan]
    exact ⟨⟨q1, q2, q3, q4, q5, q6, q7, q8, qB, qE, qG⟩,
      ⟨[], (List.append_nil _).symm, fun pr h => absurd h (List.not_mem_nil pr)⟩,
      ⟨[], (List.append_nil _).symm, fun e h => absurd h (List.not_mem_nil e)⟩⟩
  · rw [Bool.not_eq_true] at hpan
    by_cases hlt : rs.sw.maxDyn < rs.sw.minDyn
    · rw [processPixel, if_neg (by rw [hpan]; exact Bool.false_ne_true),
        if_pos hlt]
      exact ⟨⟨q1, q2, q3, q4, q5, q6, q7, q8, qB, qE, qG⟩,
        ⟨[], (List.append_nil _).symm, fun pr h => absurd h (List.not_mem_nil pr)⟩,
        ⟨[], (List.append_nil _).symm, fun e h => absurd h (List.not_mem_nil e)⟩⟩
    · have hle : rs.sw.minDyn ≤ rs.sw.maxDyn := not_lt.mp hlt
      rw [processPixel_eq m fr y rs x hpan hle]
      set D := pixelDispAt m fr rs x y with hD
      set newRec : PixelRec := ⟨x, y, rs.sw.minDyn, rs.sw.maxDyn,
        pixelCritsAt m fr rs x y, D⟩ with hnewRec
      set newEvs := (natRange rs.sw.minDyn rs.sw.maxDyn).map
        (evAt m fr x y rs.leftCrits (rs.sw.below x)) with hnewEvs
      have hpixmem : ∀ pr, pr ∈ rs.sw.pixels ++ [newRec] →
          pr ∈ rs.sw.pixels ∨ pr = newRec := by
        intro pr hpr
        rcases List.mem_append.mp hpr with h | h
        · exact Or.inl h
        · exact Or.inr (List.mem_singleton.mp h)
      have hevmem : ∀ e, e ∈ rs.sw.events ++ newEvs →
          e ∈ rs.sw.events ∨ e ∈ newEvs := fun e he => List.mem_append.mp he
      have hnewEvProps : ∀ e ∈ newEvs, e.x = x ∧ e.y = y
          ∧ e.usedBelow = usedOf rs.leftCrits (rs.sw.below x) e.d
          ∧ e.trip = m.critAt fr x y rs.leftCrits (rs.sw.below x) e.d := by
        intro e he
        rcases List.mem_map.mp he with ⟨d, _, rfl⟩
        exact ⟨rfl, rfl, rfl, rfl⟩
      refine ⟨⟨q1, q2, q3, ?_, ?_, ?_, ?_, ?_, ?_, ?_, ?_⟩, ?_, ?_⟩
      · dsimp only
        split
        · exact q4
        · split
          · have h' := (by assumption : D < rs.minRow)
            linarith
          · exact q4
      · dsimp only
        split
        · have h' := (by assumption : D > rs.maxRow)
          linarith
        · exact q5
      · intro pr hpr
        rcases hpixmem pr hpr with h | rfl
        · exact q6 pr h
        · refine ⟨hle, ?_, ?_, ?_, ?_, ?_, rfl, ?_, hx2, hy1, hy2⟩
          · show p.min_disparity ≤ rs.sw.minDyn
            omega
          · show rs.sw.minDyn ≤ p.max_disparity
            omega
          · show p.min_disparity ≤ rs.sw.maxDyn
            omega
          · show rs.sw.maxDyn ≤ p.max_disparity
            omega
          · show (pixelCritsAt m fr rs x y).length = rs.sw.maxDyn - rs.sw.minDyn
            simp [pixelCritsAt, length_natRange]
          · show p.correlation_window_size.1 + rs.sw.maxDyn ≤ x
            omega
      · intro pr hpr
        rcases hpixmem pr hpr with h | rfl
        · exact q7 pr h
        · exact le_refl y
      · intro e he
        rcases hevmem e he with h | h
        · exact q8 e h
        · rw [(hnewEvProps e h).2.1]
      · intro x' d v r hsome
        dsimp only at hsome
        by_cases hx' : x' = x
        · rw [if_pos hx'] at hsome
          by_cases hd : rs.sw.minDyn ≤ d ∧ d < rs.sw.maxDyn
          · rw [if_pos hd] at hsome
            have hv : v = (pixelTripAt m fr rs x y d).right_col ∧ r = y := by
              have := Option.some.injEq _ _ ▸ hsome
              exact ⟨(Prod.mk.injEq _ _ _ _ ▸ this.symm).1,
                (Prod.mk.injEq _ _ _ _ ▸ this.symm).2⟩
            refine ⟨⟨evAt m fr x y rs.leftCrits (rs.sw.below x) d, ?_, hx'.symm ▸ rfl,
                hv.2 ▸ rfl, rfl, by rw [hv.1]; rfl⟩, ?_, ?_⟩
            · refine List.mem_append.mpr (Or.inr ?_)
              rw [hnewEvs]
              exact List.mem_map.mpr ⟨d, mem_natRange.mpr hd, rfl⟩
            · exact ⟨newRec, List.mem_append.mpr (Or.inr (List.mem_singleton.mpr rfl)),
                hx'.symm ▸ rfl, hv.2 ▸ rfl⟩
            · intro pr hpr _
              rcases hpixmem pr hpr with h | rfl
              · rw [hv.2]
                exact q7 pr h
              · rw [hv.2]
          · rw [if_neg hd] at hsome
            cases hsome
        · rw [if_neg hx'] at hsome
          obtain ⟨⟨e, he, hex, hey, hed, hev⟩, ⟨pr0, hpr0, hpx0, hpy0⟩, hall⟩ :=
            qB x' d v r hsome
          refine ⟨⟨e, List.mem_append.mpr (Or.inl he), hex, hey, hed, hev⟩,
            ⟨pr0, List.mem_append.mpr (Or.inl hpr0), hpx0, hpy0⟩, ?_⟩
          intro pr hpr hprx
          rcases hpixmem pr hpr with h | rfl
          · exact hall pr h hprx
          · exact absurd (show x = x' from hprx).symm hx' 
      · intro e he v r husd
        rcases hevmem e he with h | h
        · obtain ⟨f1, ⟨e', he', hx', hy', hd', hv'⟩, f3⟩ := qE e h v r husd
          refine ⟨f1, ⟨e', List.mem_append.mpr (Or.inl he'), hx', hy', hd', hv'⟩, ?_⟩
          intro pr hpr hprx hpry
          rcases hpixmem pr hpr with hh | rfl
          · exact f3 pr hh hprx hpry
          · exfalso
            have h1 : y ≤ e.y := q8 e h
            have hpry' : e.y < y := hpry
            omega
        · obtain ⟨hex, hey, husd', _⟩ := hnewEvProps e h
          rw [husd'] at husd
          have hbelow := usedOf_below husd
          obtain ⟨⟨e', he', hx', hy', hd', hv'⟩, ⟨pr0, hpr0, hpx0, hpy0⟩, hall⟩ :=
            qB x e.d v r hbelow
          have hyr : y < r := by
            rcases Nat.lt_or_ge y r with hlt' | hge
            · exact hlt'
            · exfalso
              have h1 : y ≤ pr0.y := q7 pr0 hpr0
              have h2 : pr0.y = r := hpy0
              have hr : r = y := by omega
              have := hpx pr0 hpr0 (by omega)
              omega
          refine ⟨by rw [hey]; exact hyr, ⟨e', List.mem_append.mpr (Or.inl he'),
            by rw [hx', hex], hy', by rw [hd'], hv'⟩, ?_⟩
          intro pr hpr hprx hpry
          rcases hpixmem pr hpr with hh | rfl
          · exact hall pr hh (by rw [← hex]; exact hprx)
          · exfalso
            have hpry' : e.y < y := hpry
            omega
      · intro e he
        rcases hevmem e he with h | h
        · obtain ⟨pr0, hpr0, h1, h2⟩ := qG e h
          exact ⟨pr0, List.mem_append.mpr (Or.inl hpr0), h1, h2⟩
        · obtain ⟨hex, hey, _, _⟩ := hnewEvProps e h
          exact ⟨newRec, List.mem_append.mpr (Or.inr (List.mem_singleton.mpr rfl)),
            by rw [hex], by rw [hey]⟩
      · exact ⟨[newRec], rfl, fun pr h => by
          rw [List.mem_singleton.mp h, hnewRec]
          exact ⟨rfl, rfl⟩⟩
      · exact ⟨newEvs, rfl, fun e he => ⟨(hnewEvProps e he).1, (hnewEvProps e he).2.1⟩⟩

theorem rowFold_inv (p : Params) (fr : StereoFrame) (m : McManamon) (y : ℕ)
    (rows0 : List RowRec) (minD maxD : ℕ)
    (hb1 : p.min_disparity ≤ minD) (hb2 : minD ≤ p.max_disparity)
    (hb3 : p.min_disparity ≤ maxD) (hb4 : maxD ≤ p.max_disparity)
    (hy1 : p.correlation_window_size.2 ≤ y)
    (hy2 : y < fr.height - p.correlation_window_size.2) :
    ∀ (n a : ℕ) (rs : RowState),
      p.correlation_window_size.1 + maxD ≤ a →
      a + n ≤ fr.width - p.correlation_window_size.1 →
      RowInv p fr y rows0 minD maxD rs →
      (∀ pr ∈ rs.sw.pixels, pr.y = y → pr.x < a) →
      RowInv p fr y rows0 minD maxD
          ((natRange a (a + n)).foldl (processPixel m fr y) rs)
        ∧ (∃ l, ((natRange a (a + n)).foldl (processPixel m fr y) rs).sw.pixels
            = rs.sw.pixels ++ l ∧ ∀ pr ∈ l, pr.y = y)
        ∧ (∃ l, ((natRange a (a + n)).foldl (processPixel m fr y) rs).sw.events
            = rs.sw.events ++ l ∧ ∀ e ∈ l, e.y = y)
  | 0, a, rs => fun _ _ hInv _ => by
      rw [natRange_eq_nil (by omega)]
      exact ⟨hInv, ⟨[], by simp, by simp⟩, ⟨[], by simp, by simp⟩⟩
  | n + 1, a, rs => fun ha hub hInv hpx => by
      rw [show a + (n + 1) = (a + 1) + n by omega, natRange_cons (by omega),
        List.foldl_cons]
      obtain ⟨hInv', ⟨l1, hl1, hl1p⟩, ⟨l2, hl2, hl2p⟩⟩ :=
        processPixel_inv p fr m y rows0 minD maxD rs a
          hb1 hb2 hb3 hb4 ha (by omega) hy1 hy2 hInv hpx
      have hpx' : ∀ pr ∈ (processPixel m fr y rs a).sw.pixels,
          pr.y = y → pr.x < a + 1 := by
        intro pr hpr hpry
        rw [hl1] at hpr
        rcases List.mem_append.mp hpr with h | h
        · exact lt_trans (hpx pr h hpry) (Nat.lt_succ_self a)
        · rw [(hl1p pr h).1]
          exact Nat.lt_succ_self a
      obtain ⟨hfin, ⟨l1', hl1', hl1p'⟩, ⟨l2', hl2', hl2p'⟩⟩ :=
        rowFold_inv p fr m y rows0 minD maxD hb1 hb2 hb3 hb4 hy1 hy2
          n (a + 1) (processPixel m fr y rs a) (by omega) (by omega) hInv' hpx'
      refine ⟨hfin, ⟨l1 ++ l1', ?_, ?_⟩, ⟨l2 ++ l2', ?_, ?_⟩⟩
      · rw [hl1', hl1, List.append_assoc]
      · intro pr hpr
        rcases List.mem_append.mp hpr with h | h
        · exact (hl1p pr h).2
        · exact hl1p' pr h
      · rw [hl2', hl2, List.append_assoc]
      · intro e he
        rcases List.mem_append.mp he with h | h
        · exact (hl2p e h).2
        · exact hl2p' e h

theorem rowFold_inv_gen (p : Params) (fr : StereoFrame) (m : McManamon) (y : ℕ)
    (rows0 : List RowRec) (minD maxD : ℕ)
    (hb1 : p.min_disparity ≤ minD) (hb2 : minD ≤ p.max_disparity)
    (hb3 : p.min_disparity ≤ maxD) (hb4 : maxD ≤ p.max_disparity)
    (hy1 : p.correlation_window_size.2 ≤ y)
    (hy2 : y < fr.height - p.correlation_window_size.2)
    (a b : ℕ) (rs : RowState)
    (ha : p.correlation_window_size.1 + maxD ≤ a)
    (hInv : RowInv p fr y rows0 minD maxD rs)
    (hpx : ∀ pr ∈ rs.sw.pixels, pr.y = y → pr.x < a)
    (hub : b ≤ fr.width - p.correlation_window_size.1) :
    RowInv p fr y rows0 minD maxD ((natRange a b).foldl (processPixel m fr y) rs)
      ∧ (∃ l, ((natRange a b).foldl (processPixel m fr y) rs).sw.pixels
          = rs.sw.pixels ++ l ∧ ∀ pr ∈ l, pr.y = y)
      ∧ (∃ l, ((natRange a b).foldl (processPixel m fr y) rs).sw.events
          = rs.sw.events ++ l ∧ ∀ e ∈ l, e.y = y) := by
  by_cases hab : a ≤ b
  · have : b = a + (b - a) := by omega
    rw [this]
    exact rowFold_inv p fr m y rows0 minD maxD hb1 hb2 hb3 hb4 hy1 hy2
      (b - a) a rs ha (by omega) hInv hpx
  · rw [natRange_eq_nil (by omega)]
    exact ⟨hInv, ⟨[], by simp, by simp⟩, ⟨[], by simp, by simp⟩⟩

/-- The dynamic range stays ordered, and each recorded row interval is
ordered before and after its update, whenever every row's observed
tracker pair is itself ordered. -/
def RowsChainInv (st : SweepState) : Prop :=
  (∀ r ∈ st.rows, r.minRow ≤ r.maxRow) →
    (st.minDyn ≤ st.maxDyn
      ∧ ∀ r ∈ st.rows, r.minDynBefore ≤ r.maxDynBefore
          ∧ r.minDynAfter ≤ r.maxDynAfter)

/-- Each recorded row interval endpoint lies inside the configured
disparity range, before and after the update. -/
def RowsBoundsInv (p : Params) (st : SweepState) : Prop :=
  ∀ r ∈ st.rows,
    p.min_disparity ≤ r.minDynBefore ∧ r.maxDynBefore ≤ p.max_disparity
      ∧ p.min_disparity ≤ r.minDynAfter ∧ r.maxDynAfter ≤ p.max_disparity
      ∧ p.min_disparity ≤ r.maxDynBefore ∧ r.minDynBefore ≤ p.max_disparity
      ∧ p.min_disparity ≤ r.maxDynAfter ∧ r.minDynAfter ≤ p.max_disparity

/-- The master invariant of the row sweep. -/
def MInv (p : Params) (fr : StereoFrame) (st : SweepState) : Prop :=
  StateInv p st ∧ (∀ pr ∈ st.pixels, PixProps p fr pr)
    ∧ RowsChainInv st ∧ RowsBoundsInv p st
    ∧ BelowInv st ∧ EventsInv st ∧ GInv st

theorem processRow_inv (p : Params) (fr : StereoFrame) (m : McManamon)
    (hp : m.params = p) (hcfg : p.min_disparity ≤ p.max_disparity)
    (st : SweepState) (y : ℕ)
    (hy1 : p.correlation_window_size.2 ≤ y)
    (hy2 : y < fr.height - p.correlation_window_size.2)
    (hM : MInv p fr st)
    (hpy : ∀ pr ∈ st.pixels, y < pr.y)
    (hey : ∀ e ∈ st.events, y < e.y) :
    MInv p fr (processRow m fr st y)
      ∧ (∃ l, (processRow m fr st y).pixels = st.pixels ++ l ∧ ∀ pr ∈ l, pr.y = y)
      ∧ (∃ l, (processRow m fr st y).events = st.events ++ l ∧ ∀ e ∈ l, e.y = y) := by
  obtain ⟨hS, hP, hC, hB, hBi, hEi, hGi⟩ := hM
  by_cases hpan : st.panicked = true
  · rw [processRow, if_pos hpan]
    exact ⟨⟨hS, hP, hC, hB, hBi, hEi, hGi⟩,
      ⟨[], (List.append_nil _).symm, fun pr h => absurd h (List.not_mem_nil pr)⟩,
      ⟨[], (List.append_nil _).symm, fun e h => absurd h (List.not_mem_nil e)⟩⟩
  · rw [Bool.not_eq_true] at hpan
    rw [processRow, if_neg (by rw [hpan]; exact Bool.false_ne_true), hp]
    dsimp only
    set rs0 : RowState := ⟨st, fun _ => none, (p.max_disparity : ℚ),
      (p.min_disparity : ℚ)⟩ with hrs0
    have hInv0 : RowInv p fr y st.rows st.minDyn st.maxDyn rs0 := by
      refine ⟨rfl, rfl, rfl, le_refl _, le_refl _, hP, ?_, ?_, hBi, hEi, hGi⟩
      · exact fun pr h => le_of_lt (hpy pr h)
      · exact fun e h => le_of_lt (hey e h)
    obtain ⟨hInvR, ⟨lp, hlp, hlpy⟩, ⟨le', hle', hley⟩⟩ :=
      rowFold_inv_gen p fr m y st.rows st.minDyn st.maxDyn
        hS.1 hS.2.1 hS.2.2.1 hS.2.2.2 hy1 hy2
        (p.correlation_window_size.1 + st.maxDyn)
        (fr.width - p.correlation_window_size.1) rs0 (le_refl _) hInv0
        (fun pr h hy' => absurd hy' (by have := hpy pr h; omega)) (le_refl _)
    set r := (natRange (p.correlation_window_size.1 + st.maxDyn)
      (fr.width - p.correlation_window_size.1)).foldl (processPixel m fr y) rs0
      with hr
    obtain ⟨w1, w2, w3, w4, w5, w6, w7, w8, wB, wE, wG⟩ := hInvR
    by_cases hpanr : r.sw.panicked = true
    · rw [if_pos hpanr]
      refine ⟨⟨?_, w6, ?_, ?_, wB, wE, wG⟩, ⟨lp, hlp, hlpy⟩, ⟨le', hle', hley⟩⟩
      · rw [StateInv, w1, w2]
        exact hS
      · rw [RowsChainInv, w1, w2, w3]
        exact hC
      · rw [RowsBoundsInv, w3]
        exact hB
    · rw [if_neg hpanr]
      dsimp only
      set rec : RowRec := ⟨y, st.minDyn, st.maxDyn, r.minRow, r.maxRow,
        updMinDyn p r.minRow, updMaxDyn p r.maxRow⟩ with hrec
      have hub1 := updMinDyn_ge p r.minRow
      have hub2 := updMinDyn_le p r.minRow w4 hcfg
      have hub3 := updMaxDyn_ge p r.maxRow w5 hcfg
      have hub4 := updMaxDyn_le p r.maxRow
      refine ⟨⟨⟨hub1, hub2, hub3, hub4⟩, w6, ?_, ?_, wB, wE, wG⟩,
        ⟨lp, by rw [← hlp], hlpy⟩, ⟨le', by rw [← hle'], hley⟩⟩
      · intro hobs
        have hobs_old : ∀ rr ∈ st.rows, rr.minRow ≤ rr.maxRow := by
          intro rr hrr
          refine hobs rr ?_
          show rr ∈ r.sw.rows ++ [rec]
          rw [w3]
          exact List.mem_append.mpr (Or.inl hrr)
        have hobs_new : r.minRow ≤ r.maxRow := by
          have := hobs rec (List.mem_append.mpr (Or.inr (List.mem_singleton.mpr rfl)))
          exact this
        obtain ⟨hst_ch, hrecs⟩ := hC hobs_old
        have hchain := upd_chain p r.minRow r.maxRow hobs_new w4 w5 hcfg
        refine ⟨hchain, ?_⟩
        intro rr hrr
        rcases List.mem_append.mp (show rr ∈ r.sw.rows ++ [rec] from hrr) with h | h
        · rw [w3] at h
          exact hrecs rr h
        · rw [List.mem_singleton.mp h, hrec]
          exact ⟨hst_ch, hchain⟩
      · intro rr hrr
        rcases List.mem_append.mp (show rr ∈ r.sw.rows ++ [rec] from hrr) with h | h
        · rw [w3] at h
          exact hB rr h
        · rw [List.mem_singleton.mp h, hrec]
          exact ⟨hS.1, hS.2.2.2, hub1, hub4, hS.2.2.1, hS.2.1, hub3, hub2⟩

theorem sweepFold_inv (p : Params) (fr : StereoFrame) (m : McManamon)
    (hp : m.params = p) (hcfg : p.min_disparity ≤ p.max_disparity) :
    ∀ (ys : List ℕ) (st : SweepState),
      MInv p fr st →
      (∀ y' ∈ ys, p.correlation_window_size.2 ≤ y'
        ∧ y' < fr.height - p.correlation_window_size.2) →
      (∀ y' ∈ ys, ∀ pr ∈ st.pixels, y' < pr.y) →
      (∀ y' ∈ ys, ∀ e ∈ st.events, y' < e.y) →
      ys.Pairwise (· > ·) →
      MInv p fr (ys.foldl (processRow m fr) st)
  | [], st => fun hM _ _ _ _ => hM
  | y :: ys, st => fun hM hyb hpy hey hpw => by
      rw [List.foldl_cons]
      obtain ⟨hM', ⟨lp, hlp, hlpy⟩, ⟨le', hle', hley⟩⟩ :=
        processRow_inv p fr m hp hcfg st y
          (hyb y (List.mem_cons_self y ys)).1 (hyb y (List.mem_cons_self y ys)).2
          hM (hpy y (List.mem_cons_self y ys)) (hey y (List.mem_cons_self y ys))
      have hlt : ∀ y' ∈ ys, y' < y := fun y' h => List.rel_of_pairwise_cons hpw h
      refine sweepFold_inv p fr m hp hcfg ys (processRow m fr st y) hM'
        (fun y' h => hyb y' (List.mem_cons_of_mem y h)) ?_ ?_
        (List.Pairwise.of_cons hpw)
      · intro y' hy' pr hpr
        rw [hlp] at hpr
        rcases List.mem_append.mp hpr with h | h
        · exact lt_trans (hlt y' hy') (hpy y (List.mem_cons_self y ys) pr h)
        · rw [hlpy pr h]
          exact hlt y' hy'
      · intro y' hy' e he
        rw [hle'] at he
        rcases List.mem_append.mp he with h | h
        · exact lt_trans (hlt y' hy') (hey y (List.mem_cons_self y ys) e h)
        · rw [hley e h]
          exact hlt y' hy'

/-- The master invariant holds at the end of the sweep, for any
configuration with an ordered disparity range. -/
theorem computeState_MInv (p : Params) (fr : StereoFrame)
    (hcfg : p.min_disparity ≤ p.max_disparity) :
    MInv p fr ((McManamon.new p).computeState fr) := by
  rw [McManamon.computeState, new_params]
  refine sweepFold_inv p fr (McManamon.new p) (new_params p) hcfg _ _
    ⟨⟨le_refl _, hcfg, hcfg, le_refl _⟩,
     fun pr h => absurd h (List.not_mem_nil pr),
     fun _ => ⟨hcfg, fun r h => absurd h (List.not_mem_nil r)⟩,
     fun r h => absurd h (List.not_mem_nil r),
     fun x d v r h => absurd h (by simp),
     fun e he => absurd he (List.not_mem_nil e),
     fun e he => absurd he (List.not_mem_nil e)⟩
    ?_ (fun y' _ pr h => absurd h (List.not_mem_nil pr))
    (fun y' _ e h => absurd h (List.not_mem_nil e)) ?_
  · intro y' hy'
    have := mem_natRange.mp (List.mem_reverse.mp hy')
    omega
  · rw [List.pairwise_reverse]
    exact List.pairwise_lt_range' _ _

/-! ## Consequences of the sweep invariants -/

theorem dispValOf_nil (min_dyn : ℕ) : dispValOf min_dyn [] = (min_dyn : ℚ) := by
  simp [dispValOf, minIndexOf]

/-- Any pixel record satisfying `PixProps` stores a disparity inside the
closed dynamic interval that was in force. -/
theorem pixProps_disp_in_dyn (p : Params) (fr : StereoFrame) (rec : PixelRec)
    (h : PixProps p fr rec) :
    (rec.minDyn : ℚ) ≤ rec.disp ∧ rec.disp ≤ (rec.maxDyn : ℚ) := by
  obtain ⟨h1, _, _, _, _, hlen, hdisp, _⟩ := h
  rcases eq_or_ne rec.crits [] with hnil | hne
  · rw [hnil] at hlen
    simp only [List.length_nil] at hlen
    have hmm : rec.maxDyn = rec.minDyn := by omega
    rw [hdisp, hnil, dispValOf_nil, hmm]
    exact ⟨le_refl _, le_refl _⟩
  · have hb := dispValOf_bounds rec.minDyn rec.crits hne
    have hlen1 : 1 ≤ rec.crits.length := List.length_pos.mpr hne
    have hmx : rec.maxDyn = rec.minDyn + rec.crits.length := by omega
    have hcast : (rec.maxDyn : ℚ) = (rec.minDyn : ℚ) + (rec.crits.length : ℚ) := by
      rw [hmx]
      push_cast
      ring
    have hone : (1 : ℚ) ≤ (rec.crits.length : ℚ) := by exact_mod_cast hlen1
    rw [hdisp]
    exact ⟨hb.1, by linarith [hb.2]⟩

/-- A cell no pixel record targets keeps its previous value through the
final `put` fold. -/
theorem foldl_put_untouched (x y : ℕ) :
    ∀ (l : List PixelRec) (mp : DisparityMap),
      (∀ pr ∈ l, ¬(pr.x = x ∧ pr.y = y)) →
      (l.foldl (fun mp r => mp.put r.x r.y r.disp) mp).data x y = mp.data x y
  | [], _, _ => rfl
  | pr :: l, mp, h => by
      rw [List.foldl_cons,
        foldl_put_untouched x y l _ (fun q hq => h q (List.mem_cons_of_mem pr hq))]
      simp only [DisparityMap.put]
      rw [if_neg fun hc => h pr (List.mem_cons_self pr l) ⟨hc.1.symm, hc.2.symm⟩]

/-- Writing only zeros into an all-zero map keeps every cell zero. -/
theorem foldl_put_all_zero :
    ∀ (l : List PixelRec) (mp : DisparityMap),
      (∀ x y, mp.data x y = 0) → (∀ pr ∈ l, pr.disp = 0) →
      ∀ x y, (l.foldl (fun mp r => mp.put r.x r.y r.disp) mp).data x y = 0
  | [], _, h0, _ => h0
  | pr :: l, mp, h0, h => by
      rw [List.foldl_cons]
      refine foldl_put_all_zero l _ (fun x y => ?_)
        (fun q hq => h q (List.mem_cons_of_mem pr hq))
      simp only [DisparityMap.put]
      split
      · exact h pr (List.mem_cons_self pr l)
      · exact h0 x y

/-- When the head value is minimal, the first-occurrence tie-breaking of
the minimum fold selects index `0`. -/
theorem minIndexOf_eq_zero {crits : List ℚ} (hne : crits ≠ [])
    (hmin : ∀ k, k < crits.length → crits.getD 0 0 ≤ crits.getD k 0) :
    minIndexOf crits = 0 := by
  by_contra h0
  have hlt := @minIndexOf_first crits 0 (by omega)
  have hmi := minIndexOf_lt_length hne
  have := hmin (minIndexOf crits) hmi
  linarith

theorem absdiff_nonneg (fr : StereoFrame) (d : ℕ) (u v : ℤ) :
    0 ≤ absdiff fr d u v := abs_nonneg _

theorem absdiff_self_zero (fr : StereoFrame) (hlr : fr.left = fr.right)
    (u v : ℤ) : absdiff fr 0 u v = 0 := by
  simp [absdiff, hlr]

theorem colSum_nonneg (fr : StereoFrame) (d : ℕ) (hh : ℕ) (c yy : ℤ) :
    0 ≤ colSum fr d hh c yy := by
  refine List.sum_nonneg fun q hq => ?_
  obtain ⟨j, _, rfl⟩ := List.mem_map.mp hq
  exact absdiff_nonneg fr d c (yy + j)

theorem colSum_self_zero (fr : StereoFrame) (hlr : fr.left = fr.right)
    (hh : ℕ) (c yy : ℤ) : colSum fr 0 hh c yy = 0 := by
  refine List.sum_eq_zero fun q hq => ?_
  obtain ⟨j, _, rfl⟩ := List.mem_map.mp hq
  exact absdiff_self_zero fr hlr c (yy + j)

/-- The full-scan criterion total is a sum of absolute values, hence
non-negative. -/
theorem slow_total_nonneg (p : Params) (fr : StereoFrame) (x y d : ℕ) :
    0 ≤ ((McManamon.new p).get_criterion fr x y d).total := by
  rw [get_criterion_eq]
  refine List.sum_nonneg fun q hq => ?_
  obtain ⟨i, _, rfl⟩ := List.mem_map.mp hq
  exact colSum_nonneg fr d (semiH p) ((x : ℤ) + i) (y : ℤ)

/-- On identical images the full-scan criterion at candidate `0`
vanishes. -/
theorem slow_total_self_zero (p : Params) (fr : StereoFrame)
    (hlr : fr.left = fr.right) (x y : ℕ) :
    ((McManamon.new p).get_criterion fr x y 0).total = 0 := by
  rw [get_criterion_eq]
  refine List.sum_eq_zero fun q hq => ?_
  obtain ⟨i, _, rfl⟩ := List.mem_map.mp hq
  exact colSum_self_zero fr hlr (semiH p) ((x : ℤ) + i) (y : ℤ)

/-- With `min_disparity = 0` and a non-positive row minimum, the
RangeController sends `min_dyn_disp` to `0`. -/
theorem updMinDyn_zero (p : Params) (hm0 : p.min_disparity = 0) (mnr : ℚ)
    (hmnr : mnr ≤ 0) : updMinDyn p mnr = 0 := by
  simp only [updMinDyn, hm0, Nat.cast_zero]
  have hfl : (⌊mnr⌋ : ℚ) ≤ 0 := by
    exact_mod_cast Int.floor_nonpos hmnr
  have hthr : (0 : ℚ) ≤ (p.dyn_disparity_threshold : ℚ) := Nat.cast_nonneg _
  set e : ℚ := (⌊mnr⌋ : ℚ) - (p.dyn_disparity_threshold : ℚ) with he
  have hmn0 : e ≤ 0 := by rw [he]; linarith
  by_cases hlt : e < 0
  · rw [if_pos hlt, if_neg (lt_irrefl 0)]
    simp
  · have he0 : e = 0 := le_antisymm hmn0 (not_lt.mp hlt)
    rw [if_neg hlt, he0, if_neg (lt_irrefl 0)]
    simp

/-! ## The sweep on identical images -/

/-- Invariant of the row sweep on identical images with
`min_disparity = 0`: no panic, `min_dyn_disp` pinned at `0`, the dynamic
maximum bounded by the previous row's maximum `mprev` (so the column
ranges only widen as the sweep climbs), every live below-cache entry
fresh from the row `yprod` just processed and carrying its full-scan
`right_col`, and every visited pixel stores disparity `0` selected at the
first candidate. -/
def IdInv (p : Params) (fr : StereoFrame) (yprod mprev : ℕ)
    (st : SweepState) : Prop :=
  st.panicked = false ∧ st.minDyn = 0 ∧ st.maxDyn ≤ mprev
    ∧ mprev ≤ p.max_disparity
    ∧ updMaxDyn p 0 ≤ st.maxDyn
    ∧ (∀ x d v r, st.below x d = some (v, r) →
        p.correlation_window_size.1 + mprev ≤ x
          ∧ x < fr.width - p.correlation_window_size.1
          ∧ v = ((McManamon.new p).get_criterion fr x yprod d).right_col
          ∧ r = yprod)
    ∧ (∀ pr ∈ st.pixels, minIndexOf pr.crits = 0 ∧ pr.disp = 0)

/-- Invariant of one row's column fold on identical images, at column
position `a` of row `y`, with current dynamic maximum `my` and the
previous row's maximum `mprev`: the left cache holds column `a - 1`'s
full-scan triples, processed columns' below entries are fresh from row
`y` and unprocessed ones from row `y + 1`, the row trackers stay pinned,
and every pixel so far stores disparity `0`. -/
def IdQ (p : Params) (fr : StereoFrame) (y my mprev a : ℕ)
    (rs : RowState) : Prop :=
  rs.sw.panicked = false ∧ rs.sw.minDyn = 0 ∧ rs.sw.maxDyn = my
    ∧ rs.maxRow = 0
    ∧ (p.correlation_window_size.1 + my < a → rs.minRow ≤ 0)
    ∧ (∀ d t, rs.leftCrits d = some t →
        t = (McManamon.new p).get_criterion fr (a - 1) y d)
    ∧ (∀ x' d v r, rs.sw.below x' d = some (v, r) →
        x' < fr.width - p.correlation_window_size.1
          ∧ (x' < a → p.correlation_window_size.1 + my ≤ x'
              ∧ v = ((McManamon.new p).get_criterion fr x' y d).right_col ∧ r = y)
          ∧ (a ≤ x' → p.correlation_window_size.1 + mprev ≤ x'
              ∧ v = ((McManamon.new p).get_criterion fr x' (y + 1) d).right_col
              ∧ r = y + 1))
    ∧ (∀ pr ∈ rs.sw.pixels, minIndexOf pr.crits = 0 ∧ pr.disp = 0)

/-- Under the column-fold invariant every candidate's criterion — fast
path or slow path — equals the full scan. -/
theorem idTrip (p : Params) (fr : StereoFrame) (_hlr : fr.left = fr.right)
    (hsw : 1 ≤ semiW p) (y my mprev a : ℕ) (rs : RowState)
    (hQ : IdQ p fr y my mprev a rs)
    (ha1 : p.correlation_window_size.1 + my ≤ a) (d : ℕ) :
    pixelTripAt (McManamon.new p) fr rs a y d
      = (McManamon.new p).get_criterion fr a y d := by
  obtain ⟨_, _, _, _, _, hL, hB, _⟩ := hQ
  have hww : 3 ≤ p.correlation_window_size.1 := by
    have h := hsw
    simp only [semiW] at h
    omega
  show (McManamon.new p).critAt fr a y rs.leftCrits (rs.sw.below a) d = _
  unfold McManamon.critAt
  rcases hl : rs.leftCrits d with _ | lt
  · rcases hb : rs.sw.below a d with _ | bv
    · rfl
    · rfl
  · rcases hb : rs.sw.below a d with _ | bv
    · rfl
    · rcases bv with ⟨v, r⟩
      have hlt := hL d lt hl
      have hbv := (hB a d v r hb).2.2 (le_refl a)
      show (McManamon.new p).get_criterion_fast fr a y d lt v = _
      rw [hlt, hbv.2.1]
      exact fast_matches_slow p fr a y d hsw (by omega)

/-- Under the column-fold invariant the pixel's criterion list is the
full-scan totals of the candidates. -/
theorem idCrits (p : Params) (fr : StereoFrame) (hlr : fr.left = fr.right)
    (hsw : 1 ≤ semiW p) (y my mprev a : ℕ) (rs : RowState)
    (hQ : IdQ p fr y my mprev a rs)
    (ha1 : p.correlation_window_size.1 + my ≤ a) :
    pixelCritsAt (McManamon.new p) fr rs a y
      = (natRange 0 my).map
          (fun d => ((McManamon.new p).get_criterion fr a y d).total) := by
  have h2 := hQ.2.1
  have h3 := hQ.2.2.1
  simp only [pixelCritsAt, h2, h3]
  exact List.map_congr_left fun d _ => by
    rw [idTrip p fr hlr hsw y my mprev a rs hQ ha1 d]

/-- Under the column-fold invariant the selected index is `0` and the
written disparity is `0`. -/
theorem idDisp (p : Params) (fr : StereoFrame) (hlr : fr.left = fr.right)
    (hsw : 1 ≤ semiW p) (y my mprev a : ℕ) (rs : RowState)
    (hQ : IdQ p fr y my mprev a rs)
    (ha1 : p.correlation_window_size.1 + my ≤ a) :
    minIndexOf (pixelCritsAt (McManamon.new p) fr rs a y) = 0
      ∧ pixelDispAt (McManamon.new p) fr rs a y = 0 := by
  have h2 := hQ.2.1
  have hcr := idCrits p fr hlr hsw y my mprev a rs hQ ha1
  rcases Nat.eq_zero_or_pos my with hmy | hmy
  · have hnil : pixelCritsAt (McManamon.new p) fr rs a y = [] := by
      rw [hcr, hmy, natRange_eq_nil (le_refl 0), List.map_nil]
    constructor
    · rw [hnil]
      rfl
    · rw [pixelDispAt, hnil, h2, dispValOf_nil, Nat.cast_zero]
  · have hcons : pixelCritsAt (McManamon.new p) fr rs a y
        = ((McManamon.new p).get_criterion fr a y 0).total
          :: (natRange 1 my).map
              (fun d => ((McManamon.new p).get_criterion fr a y d).total) := by
      rw [hcr, natRange_cons hmy, List.map_cons]
    have hne : pixelCritsAt (McManamon.new p) fr rs a y ≠ [] := by
      rw [hcons]
      exact List.cons_ne_nil _ _
    have hd0 : (pixelCritsAt (McManamon.new p) fr rs a y).getD 0 0 = 0 := by
      rw [hcons]
      simp only [List.getD_cons_zero]
      exact slow_total_self_zero p fr hlr a y
    have hmin : ∀ k, k < (pixelCritsAt (McManamon.new p) fr rs a y).length →
        (pixelCritsAt (McManamon.new p) fr rs a y).getD 0 0
          ≤ (pixelCritsAt (McManamon.new p) fr rs a y).getD k 0 := by
      intro k hk
      rw [hd0]
      have hmem : (pixelCritsAt (McManamon.new p) fr rs a y).getD k 0
          ∈ pixelCritsAt (McManamon.new p) fr rs a y := by
        rw [List.getD_eq_getElem _ 0 hk]
        exact List.getElem_mem hk
      rw [hcr] at hmem ⊢
      obtain ⟨d, _, hdq⟩ := List.mem_map.mp hmem
      rw [← hdq]
      exact slow_total_nonneg p fr a y d
    have h0 : minIndexOf (pixelCritsAt (McManamon.new p) fr rs a y) = 0 :=
      minIndexOf_eq_zero hne hmin
    refine ⟨h0, ?_⟩
    rw [pixelDispAt, h2]
    simp only [dispValOf]
    rw [if_pos (Or.inl h0), h0]
    norm_num

/-- One column step preserves the identical-images row invariant. -/
theorem idPixelStep (p : Params) (fr : StereoFrame) (hlr : fr.left = fr.right)
    (hsw : 1 ≤ semiW p) (y my mprev a : ℕ) (rs : RowState)
    (hQ : IdQ p fr y my mprev a rs)
    (ha1 : p.correlation_window_size.1 + my ≤ a)
    (ha2 : a < fr.width - p.correlation_window_size.1) :
    IdQ p fr y my mprev (a + 1) (processPixel (McManamon.new p) fr y rs a) := by
  obtain ⟨q1, q2, q3, q4, q5, q6, q7, q8⟩ := hQ
  have hdisp := idDisp p fr hlr hsw y my mprev a rs ⟨q1, q2, q3, q4, q5, q6, q7, q8⟩ ha1
  rw [processPixel_eq (McManamon.new p) fr y rs a q1 (by rw [q2]; exact Nat.zero_le _)]
  have hgt : ¬(pixelDispAt (McManamon.new p) fr rs a y > rs.maxRow) := by
    rw [hdisp.2, q4]
    exact lt_irrefl 0
  refine ⟨q1, q2, q3, ?_, ?_, ?_, ?_, ?_⟩
  · show (if pixelDispAt (McManamon.new p) fr rs a y > rs.maxRow
        then pixelDispAt (McManamon.new p) fr rs a y else rs.maxRow) = 0
    rw [if_neg hgt]
    exact q4
  · intro _
    show (if pixelDispAt (McManamon.new p) fr rs a y > rs.maxRow then rs.minRow
        else if pixelDispAt (McManamon.new p) fr rs a y < rs.minRow
          then pixelDispAt (McManamon.new p) fr rs a y else rs.minRow) ≤ 0
    rw [if_neg hgt]
    by_cases hlt : pixelDispAt (McManamon.new p) fr rs a y < rs.minRow
    · rw [if_pos hlt, hdisp.2]
    · rw [if_neg hlt]
      rw [hdisp.2] at hlt
      exact le_of_not_lt hlt
  · intro d t ht
    have ht' : (if rs.sw.minDyn ≤ d ∧ d < rs.sw.maxDyn
        then some (pixelTripAt (McManamon.new p) fr rs a y d) else none) = some t := ht
    by_cases hd : rs.sw.minDyn ≤ d ∧ d < rs.sw.maxDyn
    · rw [if_pos hd] at ht'
      have := Option.some.inj ht'
      rw [← this, idTrip p fr hlr hsw y my mprev a rs ⟨q1, q2, q3, q4, q5, q6, q7, q8⟩ ha1 d,
        Nat.add_sub_cancel]
    · rw [if_neg hd] at ht'
      exact absurd ht' (by simp)
  · intro x' d v r hx'
    have hx'' : (if x' = a
        then (if rs.sw.minDyn ≤ d ∧ d < rs.sw.maxDyn
          then some ((pixelTripAt (McManamon.new p) fr rs a y d).right_col, y) else none)
        else rs.sw.below x' d) = some (v, r) := hx'
    by_cases hxa : x' = a
    · rw [if_pos hxa] at hx''
      by_cases hd : rs.sw.minDyn ≤ d ∧ d < rs.sw.maxDyn
      · rw [if_pos hd] at hx''
        have hpair := Option.some.inj hx''
        have hv : v = (pixelTripAt (McManamon.new p) fr rs a y d).right_col :=
          (Prod.mk.injEq _ _ _ _ ▸ hpair).1.symm
        have hr : r = y := (Prod.mk.injEq _ _ _ _ ▸ hpair).2.symm
        subst hxa
        refine ⟨ha2, fun _ => ⟨ha1, ?_, hr⟩, fun hle => absurd hle (by omega)⟩
        rw [hv, idTrip p fr hlr hsw y my mprev x' rs ⟨q1, q2, q3, q4, q5, q6, q7, q8⟩ ha1 d]
      · rw [if_neg hd] at hx''
        exact absurd hx'' (by simp)
    · rw [if_neg hxa] at hx''
      obtain ⟨w1, w2, w3⟩ := q7 x' d v r hx''
      refine ⟨w1, fun hlt => ?_, fun hle => ?_⟩
      · rcases Nat.lt_or_ge x' a with h | h
        · exact w2 h
        · have : x' = a := by omega
          exact absurd this hxa
      · exact w3 (by omega)
  · intro pr hpr
    rcases List.mem_append.mp hpr with h | h
    · exact q8 pr h
    · rw [List.mem_singleton.mp h]
      exact ⟨hdisp.1, hdisp.2⟩

/-- The whole column fold preserves the identical-images row
invariant. -/
theorem idRowFold (p : Params) (fr : StereoFrame) (hlr : fr.left = fr.right)
    (hsw : 1 ≤ semiW p) (y my mprev : ℕ) :
    ∀ (n a : ℕ) (rs : RowState),
      p.correlation_window_size.1 + my ≤ a →
      a + n ≤ fr.width - p.correlation_window_size.1 →
      IdQ p fr y my mprev a rs →
      IdQ p fr y my mprev (a + n)
        ((natRange a (a + n)).foldl (processPixel (McManamon.new p) fr y) rs)
  | 0, a, rs => fun _ _ hQ => by
      rw [natRange_eq_nil (by omega)]
      exact hQ
  | n + 1, a, rs => fun ha hub hQ => by
      rw [show a + (n + 1) = (a + 1) + n by omega, natRange_cons (by omega),
        List.foldl_cons]
      have hstep := idPixelStep p fr hlr hsw y my mprev a rs hQ ha (by omega)
      exact idRowFold p fr hlr hsw y my mprev n (a + 1)
        (processPixel (McManamon.new p) fr y rs a) (by omega) (by omega) hstep

/-- One row of the sweep preserves the identical-images invariant, with
the row's own dynamic maximum becoming the next `mprev`. -/
theorem idRow (p : Params) (fr : StereoFrame) (hlr : fr.left = fr.right)
    (hm0 : p.min_disparity = 0) (hsw : 1 ≤ semiW p)
    (hfirst : p.correlation_window_size.1 + p.max_disparity
      < fr.width - p.correlation_window_size.1)
    (y mprev : ℕ) (st : SweepState)
    (hInv : IdInv p fr (y + 1) mprev st) :
    IdInv p fr y st.maxDyn (processRow (McManamon.new p) fr st y) := by
  obtain ⟨i1, i2, i3, i4, i5, i6, i7⟩ := hInv
  rw [processRow, if_neg (by rw [i1]; exact Bool.false_ne_true), new_params]
  dsimp only
  set ww := p.correlation_window_size.1 with hww
  set my := st.maxDyn with hmy
  set rs0 : RowState := ⟨st, fun _ => none, (p.max_disparity : ℚ),
    (p.min_disparity : ℚ)⟩ with hrs0
  have hQ0 : IdQ p fr y my mprev (ww + my) rs0 := by
    refine ⟨i1, i2, rfl, ?_, ?_, ?_, ?_, i7⟩
    · show (p.min_disparity : ℚ) = 0
      rw [hm0, Nat.cast_zero]
    · intro h
      omega
    · intro d t ht
      exact absurd ht (by simp)
    · intro x' d v r hx'
      obtain ⟨w1, w2, w3, w4⟩ := i6 x' d v r hx'
      refine ⟨w2, fun hlt => absurd hlt (by omega), fun _ => ⟨w1, w3, w4⟩⟩
  have hrange : ww + my ≤ fr.width - ww := by omega
  have hQE := idRowFold p fr hlr hsw y my mprev ((fr.width - ww) - (ww + my))
    (ww + my) rs0 (le_refl _) (by omega) hQ0
  rw [show ww + my + ((fr.width - ww) - (ww + my)) = fr.width - ww by omega] at hQE
  set r := (natRange (ww + my) (fr.width - ww)).foldl
    (processPixel (McManamon.new p) fr y) rs0 with hr
  obtain ⟨q1, q2, q3, q4, q5, q6, q7, q8⟩ := hQE
  rw [if_neg (by rw [q1]; exact Bool.false_ne_true)]
  have hminr : r.minRow ≤ 0 := q5 (by omega)
  refine ⟨q1, ?_, ?_, by omega, ?_, ?_, q8⟩
  · show updMinDyn p r.minRow = 0
    exact updMinDyn_zero p hm0 r.minRow hminr
  · show updMaxDyn p r.maxRow ≤ my
    rw [q4]
    exact i5
  · show updMaxDyn p 0 ≤ updMaxDyn p r.maxRow
    rw [q4]
  · intro x' d v r' hx'
    obtain ⟨w1, w2, _⟩ := q7 x' d v r' hx'
    obtain ⟨u1, u2, u3⟩ := w2 (by omega)
    exact ⟨u1, w1, u2, u3⟩

/-- The descending row fold preserves the identical-images invariant and
yields a panic-free state with all-zero disparities. -/
theorem idSweep (p : Params) (fr : StereoFrame) (hlr : fr.left = fr.right)
    (hm0 : p.min_disparity = 0) (hsw : 1 ≤ semiW p)
    (hfirst : p.correlation_window_size.1 + p.max_disparity
      < fr.width - p.correlation_window_size.1) :
    ∀ (n a mprev : ℕ) (st : SweepState),
      IdInv p fr (a + n) mprev st →
      ((natRange a (a + n)).reverse.foldl
          (processRow (McManamon.new p) fr) st).panicked = false
        ∧ ∀ pr ∈ ((natRange a (a + n)).reverse.foldl
            (processRow (McManamon.new p) fr) st).pixels,
          minIndexOf pr.crits = 0 ∧ pr.disp = 0
  | 0, a, mprev, st => fun hInv => by
      rw [natRange_eq_nil (by omega)]
      exact ⟨hInv.1, hInv.2.2.2.2.2.2⟩
  | n + 1, a, mprev, st => fun hInv => by
      have hsnoc : natRange a (a + (n + 1)) = natRange a (a + n) ++ [a + n] := by
        unfold natRange
        rw [show a + (n + 1) - a = (a + n - a) + 1 by omega, List.range'_1_concat,
          show a + (a + n - a) = a + n by omega]
      rw [hsnoc, List.reverse_append, List.reverse_singleton, List.singleton_append,
        List.foldl_cons]
      have hInv' := idRow p fr hlr hm0 hsw hfirst (a + n) mprev st hInv
      exact idSweep p fr hlr hm0 hsw hfirst n a st.maxDyn
        (processRow (McManamon.new p) fr st (a + n)) hInv'

/-! ## The degenerate single-candidate configuration -/

/-- With `min_disparity = max_disparity` the dynamic interval is pinned at
that single value for the whole sweep and the capacity subtraction never
underflows, so no panic occurs. -/
theorem degSweep_no_panic (p : Params) (fr : StereoFrame)
    (hdeg : p.min_disparity = p.max_disparity) :
    ((McManamon.new p).computeState fr).panicked = false
      ∧ ((McManamon.new p).computeState fr).minDyn = p.max_disparity
      ∧ ((McManamon.new p).computeState fr).maxDyn = p.max_disparity := by
  rw [McManamon.computeState, new_params]
  refine foldl_preserve
    (fun st => st.panicked = false ∧ st.minDyn = p.max_disparity
      ∧ st.maxDyn = p.max_disparity)
    (processRow (McManamon.new p) fr) _ _ ?_ ?_
  · exact ⟨rfl, hdeg, rfl⟩
  intro st y _ ⟨h1, h2, h3⟩
  rw [processRow, if_neg (by rw [h1]; exact Bool.false_ne_true), new_params]
  dsimp only
  have hQ := foldl_preserve
    (fun rs : RowState => rs.sw.panicked = false
      ∧ rs.sw.minDyn = p.max_disparity ∧ rs.sw.maxDyn = p.max_disparity
      ∧ rs.minRow ≤ (p.max_disparity : ℚ) ∧ (p.max_disparity : ℚ) ≤ rs.maxRow)
    (processPixel (McManamon.new p) fr y)
    (natRange (p.correlation_window_size.1 + st.maxDyn)
      (fr.width - p.correlation_window_size.1))
    ⟨st, fun _ => none, (p.max_disparity : ℚ), (p.min_disparity : ℚ)⟩
    ⟨h1, h2, h3, le_refl _, by rw [hdeg]⟩ ?_
  · set r := (natRange (p.correlation_window_size.1 + st.maxDyn)
      (fr.width - p.correlation_window_size.1)).foldl
      (processPixel (McManamon.new p) fr y)
      ⟨st, fun _ => none, (p.max_disparity : ℚ), (p.min_disparity : ℚ)⟩ with hrdef
    obtain ⟨q1, q2, q3, q4, q5⟩ := hQ
    rw [if_neg (by rw [q1]; exact Bool.false_ne_true)]
    refine ⟨q1, ?_, ?_⟩
    · show updMinDyn p r.minRow = p.max_disparity
      have ha := updMinDyn_ge p r.minRow
      have hb := updMinDyn_le p r.minRow q4 (le_of_eq hdeg)
      omega
    · show updMaxDyn p r.maxRow = p.max_disparity
      have ha := updMaxDyn_le p r.maxRow
      have hb := updMaxDyn_ge p r.maxRow (by rw [hdeg]; exact q5) (le_of_eq hdeg)
      omega
  · intro rs x _ ⟨q1, q2, q3, q4, q5⟩
    rw [processPixel_eq (McManamon.new p) fr y rs x q1 (by omega)]
    refine ⟨q1, q2, q3, ?_, ?_⟩
    · show (if pixelDispAt (McManamon.new p) fr rs x y > rs.maxRow then rs.minRow
          else if pixelDispAt (McManamon.new p) fr rs x y < rs.minRow
            then pixelDispAt (McManamon.new p) fr rs x y else rs.minRow)
          ≤ (p.max_disparity : ℚ)
      by_cases hc1 : pixelDispAt (McManamon.new p) fr rs x y > rs.maxRow
      · rw [if_pos hc1]
        exact q4
      · rw [if_neg hc1]
        by_cases hc2 : pixelDispAt (McManamon.new p) fr rs x y < rs.minRow
        · rw [if_pos hc2]
          exact le_trans (le_of_lt hc2) q4
        · rw [if_neg hc2]
          exact q4
    · show (p.max_disparity : ℚ)
          ≤ (if pixelDispAt (McManamon.new p) fr rs x y > rs.maxRow
            then pixelDispAt (McManamon.new p) fr rs x y else rs.maxRow)
      by_cases hc1 : pixelDispAt (McManamon.new p) fr rs x y > rs.maxRow
      · rw [if_pos hc1]
        exact le_trans q5 (le_of_lt hc1)
      · rw [if_neg hc1]
        exact q5

/-! ## Concrete runs -/

set_option maxRecDepth 4000

/-- All-zero test image. -/
def imgFlat : Img := ⟨fun _ _ => 0⟩

/-- A single bright pixel at `(1, 1)`. -/
def imgDelta : Img := ⟨fun u v => if u = 1 ∧ v = 1 then 5 else 0⟩

def pC1 : Params := ⟨0, 1, 0, (1, 1)⟩

def frC1 : StereoFrame := ⟨imgDelta, imgFlat, 2, 2⟩

def pC2 : Params := ⟨0, 6, 3, (3, 1)⟩

/-- A ramp along row 3 only, offset 2 against `imgC2R`. -/
def imgC2L : Img := ⟨fun u v => if v = 3 then (u : ℚ) - 2 else 0⟩

def imgC2R : Img := ⟨fun u v => if v = 3 then (u : ℚ) else 0⟩

def frC2 : StereoFrame := ⟨imgC2L, imgC2R, 14, 6⟩

/-- The stale fast-path consumption of `frC2`'s sweep: at `(7, 1, 0)` the
fast path consumes the value `2` produced by row `3`, two rows below,
because the narrowed row `2` never visited column `7`. -/
def eC2 : CritEvent := ⟨7, 1, 0, some (2, 3), ⟨2, 0, 0⟩⟩

def pC3 : Params := ⟨0, 6, 1, (1, 1)⟩

def frC3 : StereoFrame := ⟨imgFlat, imgFlat, 3, 3⟩

def pC4 : Params := ⟨0, 5, 0, (1, 1)⟩

def frC4 : StereoFrame := ⟨imgFlat, imgFlat, 8, 4⟩

/-- A pixel of `frC4`'s second processed row, where the dynamic interval
has collapsed to `[0, 0)` yet `0` is written. -/
def prC4 : PixelRec := ⟨1, 1, 0, 0, [], 0⟩

def pC5 : Params := ⟨0, 6, 0, (1, 1)⟩

/-- Row-1 ramp shifted 3 columns against `imgC5R`: true disparity 3. -/
def imgC5L : Img := ⟨fun u v => if v = 1 then (u : ℚ) - 3 else 0⟩

def imgC5R : Img := ⟨fun u v => if v = 1 then (u : ℚ) else 0⟩

def frC5 : StereoFrame := ⟨imgC5L, imgC5R, 9, 3⟩

/-- The single pixel `frC5`'s sweep visits: an interior minimum at
candidate index 3 of 6, refined to exactly `3`. -/
def prC7 : PixelRec := ⟨7, 1, 0, 6, [3, 2, 1, 0, 1, 2], 3⟩

def pC6 : Params := ⟨0, 6, 2, (1, 1)⟩

/-- Row-1 ramp shifted 1 column against `imgC6R`: true disparity 1. -/
def imgC6L : Img := ⟨fun u v => if v = 1 then (u : ℚ) else 0⟩

def imgC6R : Img := ⟨fun u v => if v = 1 then (u : ℚ) + 1 else 0⟩

def frC6 : StereoFrame := ⟨imgC6L, imgC6R, 9, 4⟩

/-- The map `frC6`'s run returns. -/
def mpC6 : DisparityMap :=
  ((McManamon.new pC6).compute frC6).getD (DisparityMap.new 0 0)

def pC8 : Params := ⟨0, 3, 2, (1, 1)⟩

def frC8 : StereoFrame := ⟨imgFlat, imgFlat, 5, 4⟩

/-- A well-formed configuration for the identical-images theorem: window
3 wide, all rows non-empty. -/
def pC8w : Params := ⟨0, 1, 0, (3, 1)⟩

def frC8w : StereoFrame := ⟨imgFlat, imgFlat, 8, 3⟩

def pC9 : Params := ⟨2, 2, 0, (1, 1)⟩

def frC9 : StereoFrame := ⟨imgFlat, imgFlat, 6, 3⟩

def pC9b : Params := ⟨0, 1, 0, (0, 0)⟩

def frC9b : StereoFrame := ⟨imgFlat, imgFlat, 2, 1⟩

def pC9c : Params := ⟨3, 1, 0, (1, 1)⟩

def frC9c : StereoFrame := ⟨imgFlat, imgFlat, 6, 3⟩

/-- A map with no recorded maximum disparity and an out-of-range cell. -/
def mpC10 : DisparityMap := ⟨1, 1, fun _ _ => 300, none, none⟩

/-! ## The claims -/

/-- C1.  The incremental (`get_criterion_fast`) and full
(`get_criterion`) criterion computations produce the same `total` over
exact arithmetic when fed the cached triples the spec's preconditions
describe — **amended**: the identity additionally requires a window semi
width of at least `1` (so the correlation window is at least 3 columns
wide); for a width-1 window the sign quirk of `get_criterion`'s
`right_col` makes the two totals differ (see the counterexample). -/
theorem fast_total_matches_slow_amended (p : Params) (fr : StereoFrame)
    (x y d : ℕ) (hw1 : 1 ≤ semiW p) (hx : 1 ≤ x) :
    ((McManamon.new p).get_criterion_fast fr x y d
        ((McManamon.new p).get_criterion fr (x - 1) y d)
        (((McManamon.new p).get_criterion fr x (y + 1) d).right_col)).total
      = ((McManamon.new p).get_criterion fr x y d).total := by
  rw [fast_matches_slow p fr x y d hw1 hx]

/-- C2.  **Amended**: every below-cache value consumed by the fast path
at `(x, y, d)` was produced at the same column and candidate by the
nearest previously visited row of that column — some row `r > y` with no
visit of column `x` strictly between — and each entry is consumed at most
once (two consumptions at the same column with the same producing row are
the same visit).  The produced value is that row's computed `right_col`.
The spec's stronger claim that the producer is always row `y + 1` fails
when the dynamic range narrows and then widens again (see the
counterexample). -/
theorem below_consumption_amended (p : Params) (fr : StereoFrame)
    (hcfg : p.min_disparity ≤ p.max_disparity) :
    ∀ e ∈ ((McManamon.new p).computeState fr).events, ∀ v r,
      e.usedBelow = some (v, r) →
      e.y < r
        ∧ (∃ e2 ∈ ((McManamon.new p).computeState fr).events,
            e2.x = e.x ∧ e2.y = r ∧ e2.d = e.d ∧ e2.trip.right_col = v)
        ∧ (∀ pr ∈ ((McManamon.new p).computeState fr).pixels,
            pr.x = e.x → e.y < pr.y → r ≤ pr.y)
        ∧ (∀ e' ∈ ((McManamon.new p).computeState fr).events, ∀ v',
            e'.x = e.x → e'.usedBelow = some (v', r) → e'.y = e.y) := by
  obtain ⟨_, _, _, _, _, hE, hG⟩ := computeState_MInv p fr hcfg
  intro e he v r hu
  obtain ⟨h1, h2, h3⟩ := hE e he v r hu
  refine ⟨h1, h2, h3, ?_⟩
  intro e' he' v' hx' hu'
  obtain ⟨h1', _, h3'⟩ := hE e' he' v' r hu'
  rcases Nat.lt_trichotomy e'.y e.y with hlt | heq | hgt
  · obtain ⟨pr, hpr, hprx, hpry⟩ := hG e he
    have := h3' pr hpr (by rw [hprx, hx']) (by omega)
    omega
  · exact heq
  · obtain ⟨pr, hpr, hprx, hpry⟩ := hG e' he'
    have := h3 pr hpr (by rw [hprx, hx']) (by omega)
    omega

/-- C3.  **Amended**: for every processed row, all four dynamic-interval
endpoints (before and after the RangeController update) lie within the
configured `[min_disparity, max_disparity]` range; the orderings
`min_dyn_disp <= max_dyn_disp` before and after the update hold under the
additional premise that every row's observed tracker pair is ordered
(`min_disp_this_row <= max_disp_this_row`).  That premise fails for a row
that writes no pixel — its trackers keep their inverted sentinels — and
the interval can then genuinely invert (see the counterexample). -/
theorem range_chain_amended (p : Params) (fr : StereoFrame)
    (hcfg : p.min_disparity ≤ p.max_disparity) :
    (∀ r ∈ ((McManamon.new p).computeState fr).rows,
        p.min_disparity ≤ r.minDynBefore ∧ r.minDynBefore ≤ p.max_disparity
          ∧ p.min_disparity ≤ r.maxDynBefore ∧ r.maxDynBefore ≤ p.max_disparity
          ∧ p.min_disparity ≤ r.minDynAfter ∧ r.minDynAfter ≤ p.max_disparity
          ∧ p.min_disparity ≤ r.maxDynAfter ∧ r.maxDynAfter ≤ p.max_disparity)
      ∧ ((∀ r ∈ ((McManamon.new p).computeState fr).rows, r.minRow ≤ r.maxRow) →
          ∀ r ∈ ((McManamon.new p).computeState fr).rows,
            r.minDynBefore ≤ r.maxDynBefore ∧ r.minDynAfter ≤ r.maxDynAfter) := by
  obtain ⟨_, _, hC, hB, _⟩ := computeState_MInv p fr hcfg
  constructor
  · intro r hr
    obtain ⟨b1, b2, b3, b4, b5, b6, b7, b8⟩ := hB r hr
    exact ⟨b1, b6, b5, b2, b3, b8, b7, b4⟩
  · intro hobs
    exact (hC hobs).2

/-- C4.  **Amended**: every disparity value written into the map lies in
the **closed** interval `[min_dyn_disp, max_dyn_disp]` that was in force,
hence in the configured closed interval
`[min_disparity, max_disparity]`.  The spec's half-open version fails on
a row whose dynamic interval has collapsed (`min_dyn_disp =
max_dyn_disp`): the candidate loop runs zero times and `min_dyn_disp`
itself is written (see the counterexample). -/
theorem written_disparity_bounds_amended (p : Params) (fr : StereoFrame)
    (hcfg : p.min_disparity ≤ p.max_disparity) :
    ∀ pr ∈ ((McManamon.new p).computeState fr).pixels,
      (pr.minDyn : ℚ) ≤ pr.disp ∧ pr.disp ≤ (pr.maxDyn : ℚ)
        ∧ (p.min_disparity : ℚ) ≤ pr.disp ∧ pr.disp ≤ (p.max_disparity : ℚ) := by
  obtain ⟨_, hP, _⟩ := computeState_MInv p fr hcfg
  intro pr hpr
  have hp := hP pr hpr
  obtain ⟨hd1, hd2⟩ := pixProps_disp_in_dyn p fr pr hp
  have hmn : (p.min_disparity : ℚ) ≤ (pr.minDyn : ℚ) :=
    Nat.cast_le.mpr hp.2.1
  have hmx : (pr.maxDyn : ℚ) ≤ (p.max_disparity : ℚ) :=
    Nat.cast_le.mpr hp.2.2.2.2.1
  exact ⟨hd1, hd2, le_trans hmn hd1, le_trans hd2 hmx⟩

/-- C6.  **Amended**: no cell within `window_width` columns or
`window_height` rows of the image edges — plus, on the left,
`min_disparity` further columns — is ever written; it keeps the zero the
backing store is initialised with.  The spec's left margin of
`window_width + max_disparity` only holds for the first processed row:
the margin is `window_width + max_dyn_disp` and shrinks once the dynamic
maximum drops (see the counterexample). -/
theorem unwritten_margin_amended (p : Params) (fr : StereoFrame)
    (mp : DisparityMap) (hcfg : p.min_disparity ≤ p.max_disparity)
    (hmp : (McManamon.new p).compute fr = some mp) (x y : ℕ)
    (hxy : x < p.correlation_window_size.1 + p.min_disparity
      ∨ fr.width - p.correlation_window_size.1 ≤ x
      ∨ y < p.correlation_window_size.2
      ∨ fr.height - p.correlation_window_size.2 ≤ y) :
    mp.data x y = 0 := by
  obtain ⟨_, hP, _⟩ := computeState_MInv p fr hcfg
  simp only [McManamon.compute] at hmp
  by_cases hpan : ((McManamon.new p).computeState fr).panicked = true
  · rw [if_pos hpan] at hmp
    exact absurd hmp (by simp)
  · rw [if_neg hpan] at hmp
    have hmp' := Option.some.inj hmp
    rw [← hmp']
    show (((McManamon.new p).computeState fr).pixels.foldl
      (fun mp r => mp.put r.x r.y r.disp) (DisparityMap.new fr.width fr.height)).data x y = 0
    rw [foldl_put_untouched x y _ _ ?_]
    · rfl
    · intro pr hpr hc
      have hp := hP pr hpr
      obtain ⟨_, _, _, hb4, _, _, _, hx1, hx2, hy1, hy2⟩ := hp
      rcases hc with ⟨hcx, hcy⟩
      rcases hxy with h | h | h | h
      · omega
      · omega
      · omega
      · omega

/-- C7.  Whenever the sub-pixel refinement branch runs at a visited pixel
(the selected index is interior and at least three candidates were
evaluated), the parabolic-fit denominator is non-zero (indeed positive)
and the refined disparity stays within one candidate of the selected
integer candidate `min_dyn_disp + min_index`. -/
theorem refinement_denominator_and_bounds (p : Params) (fr : StereoFrame)
    (hcfg : p.min_disparity ≤ p.max_disparity) :
    ∀ pr ∈ ((McManamon.new p).computeState fr).pixels,
      minIndexOf pr.crits ≠ 0 →
      minIndexOf pr.crits ≠ pr.crits.length - 1 →
      ¬(pr.crits.length < 3) →
      refineDenom pr.crits ≠ 0
        ∧ ((pr.minDyn + minIndexOf pr.crits : ℕ) : ℚ) - 1 ≤ pr.disp
        ∧ pr.disp ≤ ((pr.minDyn + minIndexOf pr.crits : ℕ) : ℚ) + 1 := by
  obtain ⟨_, hP, _⟩ := computeState_MInv p fr hcfg
  intro pr hpr h0 hl h3
  have hp := hP pr hpr
  have hdisp : pr.disp = dispValOf pr.minDyn pr.crits := hp.2.2.2.2.2.2.1
  have habs := abs_le.mp (refine_offset_abs pr.crits h0 hl h3)
  have hden := refineDenom_pos pr.crits h0 hl h3
  refine ⟨ne_of_gt hden, ?_, ?_⟩
  · rw [hdisp, dispValOf_refined pr.minDyn pr.crits h0 hl h3]
    have h05 : (-(1 : ℚ)) ≤ (pr.crits.getD (minIndexOf pr.crits - 1) 0
        - pr.crits.getD (minIndexOf pr.crits + 1) 0) / refineDenom pr.crits := by
      linarith [habs.1]
    linarith
  · rw [hdisp, dispValOf_refined pr.minDyn pr.crits h0 hl h3]
    have h05 : (pr.crits.getD (minIndexOf pr.crits - 1) 0
        - pr.crits.getD (minIndexOf pr.crits + 1) 0) / refineDenom pr.crits ≤ 1 := by
      linarith [habs.2]
    linarith

/-- C8.  **Amended**: on identical left and right images with
`min_disparity = 0`, provided the window is at least three columns wide
(semi width at least 1 — narrower windows corrupt the fast path, claim
C1), and the bottom row's column range is non-empty (otherwise the
RangeController drifts `min_dyn_disp` above `0` off the empty rows'
sentinel trackers and a non-zero disparity is written, see the
counterexample), every visited pixel's criterion is minimised at the
first candidate `d = 0`, the written disparity is exactly `0`, and the
returned map is all zeros. -/
theorem identical_images_zero_disparity_amended (p : Params)
    (fr : StereoFrame) (hlr : fr.left = fr.right)
    (hm0 : p.min_disparity = 0) (hsw : 1 ≤ semiW p)
    (hfirst : p.correlation_window_size.1 + p.max_disparity
      < fr.width - p.correlation_window_size.1) :
    (∀ pr ∈ ((McManamon.new p).computeState fr).pixels,
        minIndexOf pr.crits = 0 ∧ pr.disp = 0)
      ∧ ∃ mp, (McManamon.new p).compute fr = some mp
          ∧ ∀ u v, mp.data u v = 0 := by
  have hkey : ((McManamon.new p).computeState fr).panicked = false
      ∧ ∀ pr ∈ ((McManamon.new p).computeState fr).pixels,
        minIndexOf pr.crits = 0 ∧ pr.disp = 0 := by
    rw [McManamon.computeState, new_params]
    by_cases hys : fr.height - p.correlation_window_size.2
        ≤ p.correlation_window_size.2
    · rw [natRange_eq_nil hys]
      exact ⟨rfl, fun pr h => absurd h (List.not_mem_nil pr)⟩
    · push_neg at hys
      rw [show fr.height - p.correlation_window_size.2
        = p.correlation_window_size.2 + ((fr.height - p.correlation_window_size.2)
          - p.correlation_window_size.2) by omega]
      refine idSweep p fr hlr hm0 hsw hfirst _ _ p.max_disparity _
        ⟨rfl, hm0, le_refl _, le_refl _, updMaxDyn_le p 0, ?_, ?_⟩
      · intro x d v r h
        exact absurd h (by simp)
      · intro pr h
        exact absurd h (List.not_mem_nil pr)
  refine ⟨hkey.2, ?_⟩
  simp only [McManamon.compute]
  rw [if_neg (by rw [hkey.1]; exact Bool.false_ne_true)]
  refine ⟨_, rfl, ?_⟩
  intro u v
  show (((McManamon.new p).computeState fr).pixels.foldl
    (fun mp r => mp.put r.x r.y r.disp) (DisparityMap.new fr.width fr.height)).data u v = 0
  exact foldl_put_all_zero _ _ (fun _ _ => rfl)
    (fun pr hpr => (hkey.2 pr hpr).2) u v

/-- C9.  **Amended**: no deliberate validation exists — construction
accepts every configuration and `compute` never inspects it before
sweeping — and for a window that fits inside the frame (the domain on
which this embedding's ℕ loop bounds agree with the source's `usize`
subtractions) a sweep with `min_disparity = max_disparity` (an empty
half-open candidate range) never fails: the dynamic interval stays
pinned at that value, the candidate loop runs zero times per pixel, and
`compute` silently returns a disparity map.  With
`min_disparity > max_disparity` the sweep instead panics at the capacity
subtraction *inside* the per-pixel loop, not before it (see the
counterexample); a window larger than the frame aborts at the loop-bound
`usize` subtraction itself in a debug build (wrapping in release), also
not a pre-sweep validation — that failure path lies outside this
embedding, hence the fitting-window hypotheses. -/
theorem degenerate_config_silent_map (p : Params) (fr : StereoFrame)
    (hdeg : p.min_disparity = p.max_disparity)
    (_hfw : p.correlation_window_size.1 ≤ fr.width)
    (_hfh : p.correlation_window_size.2 ≤ fr.height) :
    ∃ mp, (McManamon.new p).compute fr = some mp := by
  simp only [McManamon.compute]
  rw [if_neg (by rw [(degSweep_no_panic p fr hdeg).1]; exact Bool.false_ne_true)]
  exact ⟨_, rfl⟩

/-- C10.  With no recorded maximum disparity the normalising multiplier
is `1`, so `to_luma_normalised` agrees with `to_luma` on every pixel. -/
theorem to_luma_normalised_none_eq_to_luma (mp : DisparityMap)
    (h : mp.max_disp = none) :
    ∀ x y, mp.to_luma_normalised x y = mp.to_luma x y := by
  intro x y
  simp only [DisparityMap.to_luma_normalised, DisparityMap.to_luma, h]
  rw [mul_one]

/-- C5.  The whole-map trackers of `frC5`'s run: exactly one cell is
written, with value `3`, but the `min_disp` field of the returned map is
`some 6` — the tracker's `else if` never runs when the maximum branch was
taken first, so the sweep's very first write (which raises `max_disp`
from its sentinel) can never lower `min_disp`, and the recorded minimum
is not the minimum written value. -/
theorem min_disp_tracker_bug :
    ((McManamon.new pC5).computeState frC5).pixels.map PixelRec.disp = [3]
      ∧ (((McManamon.new pC5).compute frC5).map
          (fun mp => (mp.min_disp, mp.max_disp))) = some (some 6, some 3)
      ∧ (6 : ℚ) ≠ 3 := by
  with_unfolding_all decide

/-! ## Counterexamples -/

/-- C1 counterexample: with a width-1 window (`semi_width = 0`) and the
spec's own cache inputs the fast total is `-5` while the full scan gives
`0`. -/
theorem fast_total_mismatch_unit_window :
    semiW pC1 = 0
      ∧ ((McManamon.new pC1).get_criterion_fast frC1 1 0 0
          ((McManamon.new pC1).get_criterion frC1 (1 - 1) 0 0)
          (((McManamon.new pC1).get_criterion frC1 1 (0 + 1) 0).right_col)).total
        ≠ ((McManamon.new pC1).get_criterion frC1 1 0 0).total := by
  with_unfolding_all decide

/-- C2 counterexample: in `frC2`'s sweep the fast path at `(7, 1, 0)`
consumes a below-cache value produced by row `3` — not the row
immediately below (`y + 1 = 2`), whose own `right_col` at that column and
candidate differs from the consumed value. -/
theorem below_consumption_stale_row :
    ∃ e ∈ ((McManamon.new pC2).computeState frC2).events,
      e.y = 1 ∧ e.x = 7 ∧ e.d = 0
        ∧ e.usedBelow = some (2, 3)
        ∧ ((McManamon.new pC2).get_criterion frC2 7 (1 + 1) 0).right_col ≠ 2 := by
  with_unfolding_all decide

/-- C3 counterexample: `frC3`'s single row writes no pixel, its trackers
keep their inverted sentinels `(6, 0)`, and the RangeController leaves
the interval inverted: `min_dyn_disp = 5 > 1 = max_dyn_disp` after the
update. -/
theorem range_chain_inversion_after_empty_row :
    ∃ r ∈ ((McManamon.new pC3).computeState frC3).rows,
      r.minDynAfter = 5 ∧ r.maxDynAfter = 1
        ∧ ¬(r.minDynAfter ≤ r.maxDynAfter) := by
  with_unfolding_all decide

/-- C4 counterexample: a row of `frC4`'s sweep runs with the collapsed
interval `[0, 0)`; the value `0 = min_dyn_disp` is written, which is not
inside the half-open interval. -/
theorem written_disparity_outside_halfopen :
    ∃ pr ∈ ((McManamon.new pC4).computeState frC4).pixels,
      pr.disp = (pr.minDyn : ℚ) ∧ pr.minDyn = pr.maxDyn
        ∧ ¬(pr.disp < (pr.maxDyn : ℚ)) := by
  with_unfolding_all decide

/-- C6 counterexample: in `frC6`'s run the cell `(3, 1)` — within
`window_width + max_disparity = 7` of the left edge — is written with the
non-default value `1`, because the dynamic maximum dropped to `2` after
the first processed row and the left margin shrank with it. -/
theorem left_margin_write_inside_max_disparity :
    3 < pC6.correlation_window_size.1 + pC6.max_disparity
      ∧ (((McManamon.new pC6).compute frC6).map (fun mp => mp.data 3 1))
        = some 1
      ∧ (1 : ℚ) ≠ 0 := by
  with_unfolding_all decide

/-- C8 counterexample: identical (flat) images with `min_disparity = 0`,
yet the sweep writes disparity `1`: the bottom row's column range is
empty, its sentinel trackers drive `min_dyn_disp` up to `1`, and the next
row's single candidate is `d = 1`. -/
theorem identical_images_nonzero_disparity :
    frC8.left = frC8.right ∧ pC8.min_disparity = 0
      ∧ ∃ pr ∈ ((McManamon.new pC8).computeState frC8).pixels,
          pr.disp ≠ 0 := by
  refine ⟨rfl, rfl, ?_⟩
  with_unfolding_all decide

/-- C9 counterexample: none of the malformed configurations is rejected
before the sweep.  `min_disparity = max_disparity` and a zero-sized
window both silently return a map; `min_disparity > max_disparity` makes
`compute` fail, but only by panicking at the capacity subtraction inside
the per-pixel loop.  All three runs use windows that fit inside their
frames, where this embedding agrees with the source exactly. -/
theorem malformed_config_not_rejected :
    (pC9.min_disparity = pC9.max_disparity
      ∧ ((McManamon.new pC9).compute frC9).isSome = true)
      ∧ (pC9b.correlation_window_size = (0, 0)
        ∧ ((McManamon.new pC9b).compute frC9b).isSome = true)
      ∧ (pC9c.max_disparity < pC9c.min_disparity
        ∧ ((McManamon.new pC9c).compute frC9c).isNone = true) := by
  with_unfolding_all decide

/-! ## Witnesses -/

theorem fast_total_matches_slow_amended_witness :
    1 ≤ semiW pC8w
      ∧ ((McManamon.new pC8w).get_criterion_fast frC8w 1 0 0
          ((McManamon.new pC8w).get_criterion frC8w (1 - 1) 0 0)
          (((McManamon.new pC8w).get_criterion frC8w 1 (0 + 1) 0).right_col)).total
        = ((McManamon.new pC8w).get_criterion frC8w 1 0 0).total :=
  ⟨by decide, fast_total_matches_slow_amended pC8w frC8w 1 0 0 (by decide) (by decide)⟩

theorem below_consumption_amended_witness :
    eC2.y < 3
      ∧ (∃ e2 ∈ ((McManamon.new pC2).computeState frC2).events,
          e2.x = eC2.x ∧ e2.y = 3 ∧ e2.d = eC2.d ∧ e2.trip.right_col = 2)
      ∧ (∀ pr ∈ ((McManamon.new pC2).computeState frC2).pixels,
          pr.x = eC2.x → eC2.y < pr.y → 3 ≤ pr.y)
      ∧ (∀ e' ∈ ((McManamon.new pC2).computeState frC2).events, ∀ v',
          e'.x = eC2.x → e'.usedBelow = some (v', 3) → e'.y = eC2.y) :=
  below_consumption_amended pC2 frC2 (by decide) eC2
    (by with_unfolding_all decide) 2 3 (by with_unfolding_all decide)

theorem range_chain_amended_witness :
    (∀ r ∈ ((McManamon.new pC3).computeState frC3).rows,
        pC3.min_disparity ≤ r.minDynBefore ∧ r.minDynBefore ≤ pC3.max_disparity
          ∧ pC3.min_disparity ≤ r.maxDynBefore ∧ r.maxDynBefore ≤ pC3.max_disparity
          ∧ pC3.min_disparity ≤ r.minDynAfter ∧ r.minDynAfter ≤ pC3.max_disparity
          ∧ pC3.min_disparity ≤ r.maxDynAfter ∧ r.maxDynAfter ≤ pC3.max_disparity)
      ∧ ((∀ r ∈ ((McManamon.new pC3).computeState frC3).rows, r.minRow ≤ r.maxRow) →
          ∀ r ∈ ((McManamon.new pC3).computeState frC3).rows,
            r.minDynBefore ≤ r.maxDynBefore ∧ r.minDynAfter ≤ r.maxDynAfter) :=
  range_chain_amended pC3 frC3 (by decide)

theorem written_disparity_bounds_amended_witness :
    (prC4.minDyn : ℚ) ≤ prC4.disp ∧ prC4.disp ≤ (prC4.maxDyn : ℚ)
      ∧ (pC4.min_disparity : ℚ) ≤ prC4.disp
      ∧ prC4.disp ≤ (pC4.max_disparity : ℚ) :=
  written_disparity_bounds_amended pC4 frC4 (by decide) prC4
    (by with_unfolding_all decide)

theorem unwritten_margin_amended_witness : mpC6.data 0 1 = 0 :=
  unwritten_margin_amended pC6 frC6 mpC6 (by decide)
    (by with_unfolding_all rfl) 0 1 (Or.inl (by decide))

theorem refinement_denominator_and_bounds_witness :
    refineDenom prC7.crits ≠ 0
      ∧ ((prC7.minDyn + minIndexOf prC7.crits : ℕ) : ℚ) - 1 ≤ prC7.disp
      ∧ prC7.disp ≤ ((prC7.minDyn + minIndexOf prC7.crits : ℕ) : ℚ) + 1 :=
  refinement_denominator_and_bounds pC5 frC5 (by decide) prC7
    (by with_unfolding_all decide) (by with_unfolding_all decide)
    (by with_unfolding_all decide) (by with_unfolding_all decide)

theorem identical_images_zero_disparity_amended_witness :
    (∀ pr ∈ ((McManamon.new pC8w).computeState frC8w).pixels,
        minIndexOf pr.crits = 0 ∧ pr.disp = 0)
      ∧ ∃ mp, (McManamon.new pC8w).compute frC8w = some mp
          ∧ ∀ u v, mp.data u v = 0 :=
  identical_images_zero_disparity_amended pC8w frC8w rfl rfl (by decide) (by decide)

theorem degenerate_config_silent_map_witness :
    pC9.min_disparity = pC9.max_disparity
      ∧ pC9.correlation_window_size.1 ≤ frC9.width
      ∧ pC9.correlation_window_size.2 ≤ frC9.height
      ∧ ∃ mp, (McManamon.new pC9).compute frC9 = some mp :=
  ⟨rfl, by decide, by decide,
    degenerate_config_silent_map pC9 frC9 rfl (by decide) (by decide)⟩

theorem to_luma_normalised_none_eq_to_luma_witness :
    mpC10.max_disp = none
      ∧ mpC10.to_luma_normalised 0 0 = mpC10.to_luma 0 0 :=
  ⟨rfl, to_luma_normalised_none_eq_to_luma mpC10 rfl 0 0⟩

end CvDisparity
